import Mathlib

/-!
Verification of the MCTS_v2 search engine of `mtcs_v2.py`.

The Python tree of `Node` objects (mutable, with parent back-references) is
embedded as an inductive rose tree `MTree`; a node is addressed by its path
from the root (the list of child indices), so the source's parent-pointer
walks become walks over the path's prefixes.  Machine floats are embedded as
exact numbers: the reward bookkeeping (`score`, `reward_samples`, `Q`) in ℚ,
the UCB1 priority value in ℝ (with `float('inf')` as a separate
constructor).  Fallible code paths (reading `node.evaluation` when it is
still `None` inside `build_prompt_with_feedback`) are embedded as `Option`:
a `none` result of the engine models an uncaught `TypeError`.

External collaborators (the LLM transport `mcts_openai_messages`, the
worker/`Solution.eval` pipeline, the RAG retrieval used only for the root
state) are parametrised as an `Oracle`; the engine itself is translated
from the source.
-/

/-- Mirror of the attribute set of `Node.__init__` (mtcs_v2.py lines 22-32):
`state`, `evaluation`, `visits`, `score`, `reward_samples`, `Q`, `depth`.
The `parent`/`children` links live in the surrounding `MTree` structure. -/
structure NodeData where
  state : String
  evaluation : Option String
  visits : Nat
  score : ℚ
  rewardSamples : List ℚ
  Q : ℚ
  depth : Nat
deriving DecidableEq

/-- The search tree: a node's payload plus its ordered children list. -/
inductive MTree : Type where
  | node : NodeData → List MTree → MTree

def MTree.data : MTree → NodeData
  | .node d _ => d

def MTree.children : MTree → List MTree
  | .node _ cs => cs

/-- A fresh node as built by `Node(state=child_state, parent=self, depth=...)`:
no evaluation, 0 visits, 0 score, empty reward samples, Q = 0. -/
def newNode (state : String) (depth : Nat) : MTree :=
  .node ⟨state, none, 0, 0, [], 0, depth⟩ []

/-- Replace the element at an index, leaving the list unchanged when the
index is out of range. -/
def listModify (f : α → α) : Nat → List α → List α
  | _, [] => []
  | 0, a :: as => f a :: as
  | n + 1, a :: as => a :: listModify f n as

/-- Minimum of a list of rationals; `np.min` of the (always non-empty)
`reward_samples` list.  The `[]` case is never reached by the engine. -/
def listMin : List ℚ → ℚ
  | [] => 0
  | x :: xs => xs.foldl min x

/-- Pair each element with its index, starting from `i`. -/
def enumFrom : Nat → List α → List (Nat × α)
  | _, [] => []
  | i, a :: as => (i, a) :: enumFrom (i + 1) as

/-- The list `[s, s+1, ..., s+n-1]`; `natRange 0 n` is `List.range n`. -/
def natRange : Nat → Nat → List Nat
  | _, 0 => []
  | s, n + 1 => s :: natRange (s + 1) n

/-- Sequence a list of options: `some` of the list of values when every
entry is `some`, otherwise `none`. -/
def optionList : List (Option α) → Option (List α)
  | [] => some []
  | none :: _ => none
  | some a :: rest => (optionList rest).map (a :: ·)

/-- `onPath q p` holds when the node addressed by `q` lies on the root path
of the node addressed by `p` (that is, `q` is `p` itself or one of its
ancestors). -/
def onPath : List Nat → List Nat → Prop
  | [], _ => True
  | _ :: _, [] => False
  | i :: q, j :: p => i = j ∧ onPath q p

/-- All paths on the root path of `p`, shortest first: the root `[]`, then
one more step of `p` each, ending with `p` itself. -/
def ancestorPaths : List Nat → List (List Nat)
  | [] => [[]]
  | i :: p => [] :: (ancestorPaths p).map (i :: ·)

/-- Strictly increasing index components, all above `i`. -/
def idxMono : Nat → List (Nat × MTree) → Prop
  | _, [] => True
  | i, jc :: rest => i < jc.1 ∧ idxMono jc.1 rest

/-- Payload of the node addressed by a path; total, with a junk default on
an out-of-range index (the engine only ever uses valid paths). -/
def MTree.dataAt : MTree → List Nat → NodeData
  | t, [] => t.data
  | t, i :: p =>
    match t.children.get? i with
    | some c => c.dataAt p
    | none => t.data

/-- Subtree rooted at the node addressed by a path (same convention). -/
def MTree.subtreeAt : MTree → List Nat → MTree
  | t, [] => t
  | t, i :: p =>
    match t.children.get? i with
    | some c => c.subtreeAt p
    | none => t

/-- A path addresses an actual node of the tree. -/
def MTree.validPath : MTree → List Nat → Prop
  | _, [] => True
  | t, i :: p =>
    match t.children.get? i with
    | some c => c.validPath p
    | none => False

/-- Payloads of the nodes along the root path of `p`, root first, the node
at `p` last (the reverse of the source's parent-pointer walk). -/
def nodesAlong : MTree → List Nat → List NodeData
  | t, [] => [t.data]
  | t, i :: p =>
    t.data ::
      match t.children.get? i with
      | some c => nodesAlong c p
      | none => []

/-- Apply `f` to the payload of the single node addressed by `p`. -/
def MTree.modifyDataAt (f : NodeData → NodeData) : MTree → List Nat → MTree
  | .node d cs, [] => .node (f d) cs
  | .node d cs, i :: p => .node d (listModify (fun c => c.modifyDataAt f p) i cs)

/-- Apply `f` to the payload of every node on the root path of `p`, the
node itself included.  The source walks child-to-root through `parent`
references; the set of updated nodes and the per-node update coincide. -/
def MTree.mapPath (f : NodeData → NodeData) : MTree → List Nat → MTree
  | .node d cs, [] => .node (f d) cs
  | .node d cs, i :: p => .node (f d) (listModify (fun c => c.mapPath f p) i cs)

/-- `Node.add_child` (lines 34-38): append a fresh child with
`depth = self.depth + 1` to the children of the node addressed by `p`. -/
def MTree.addChild : MTree → List Nat → String → MTree
  | .node d cs, [], st => .node d (cs ++ [newNode st (d.depth + 1)])
  | .node d cs, i :: p, st => .node d (listModify (fun c => c.addChild p st) i cs)

/-- `node.evaluation = text` on the node addressed by `p`. -/
def MTree.setEvaluation (t : MTree) (p : List Nat) (text : String) : MTree :=
  t.modifyDataAt (fun d => { d with evaluation := some text }) p

/-- `Node.add_reward` (lines 47-52): append the reward to `reward_samples`
and recompute `Q = (np.mean(samples) + np.min(samples)) / 2`. -/
def addReward (d : NodeData) (reward : ℚ) : NodeData :=
  let samples := d.rewardSamples ++ [reward]
  let avgReward := samples.sum / (samples.length : ℚ)
  let minReward := listMin samples
  { d with rewardSamples := samples, Q := (avgReward + minReward) / 2 }

/-- `MCTS_v2.backpropagate` (lines 155-159): `add_reward` on the node at
`p` and on every one of its ancestors up to the root. -/
def MTree.backpropagate (t : MTree) (p : List Nat) (reward : ℚ) : MTree :=
  t.mapPath (fun d => addReward d reward) p

/-- `Node.update_score` (lines 40-45): add the value to `score` and bump
`visits` on the node at `p` and on every ancestor up to the root.  The
method exists on `Node` but is never invoked anywhere in the engine. -/
def MTree.updateScore (t : MTree) (p : List Nat) (value : ℚ) : MTree :=
  t.mapPath (fun d => { d with score := d.score + value, visits := d.visits + 1 }) p

/-- `MCTS_v2.summarize_evaluation` (lines 116-122): texts longer than 100
characters keep their first 100 and last 100 characters around an
ellipsis; shorter texts pass through unchanged. -/
def summarizeEvaluation (evaluationText : String) : String :=
  let maxLength := 100
  if maxLength < evaluationText.length then
    evaluationText.take maxLength ++ "..." ++ evaluationText.drop (evaluationText.length - maxLength)
  else
    evaluationText

/-- One entry of the OpenAI-style message list. -/
structure ChatMessage where
  role : String
  content : String
deriving DecidableEq

/-- Closing user message of `build_prompt_with_feedback` (line 112). -/
def finalUserPrompt : String :=
  "You never agree with the above solutions, and provide the TRULY correct and NO-TIMEOUT solution."

/-- Opening user message of `build_prompt_with_feedback` (line 98). -/
def problemPrompt (problemDescription : String) : String :=
  "## Problem: " ++ problemDescription

/-- `MCTS_v2.build_prompt_with_feedback` (lines 96-114): walk from the node
at `p` up to the root (root excluded), collect one assistant message per
visited node (`summarize_evaluation(state) + evaluation`), reverse the
collection, and wrap it between the problem prompt and the closing user
message.  Reading a node whose `evaluation` is still `None` would raise a
`TypeError` in the source; that outcome is the `none` result here. -/
def buildPromptWithFeedback (t : MTree) (p : List Nat) (problemDescription : String) :
    Option (List ChatMessage) :=
  (optionList ((((nodesAlong t p).drop 1).reverse).map (fun d =>
      d.evaluation.map (fun e =>
        ChatMessage.mk "assistant" (summarizeEvaluation d.state ++ e))))).map
    (fun conversationHistory =>
      ChatMessage.mk "user" (problemPrompt problemDescription) ::
        conversationHistory.reverse ++ [ChatMessage.mk "user" finalUserPrompt])

/-- UCB1 priority; `float('inf')` is the extra top element. -/
inductive Priority where
  | val : ℝ → Priority
  | posInf : Priority

/-- Strict comparison of priorities, as the float comparison of the
source: every finite value is below `inf`, and `inf < inf` is false. -/
def Priority.lt : Priority → Priority → Prop
  | .val x, .val y => x < y
  | .val _, .posInf => True
  | .posInf, _ => False

noncomputable instance (p q : Priority) : Decidable (p.lt q) :=
  Classical.propDecidable _

/-- `MCTS_v2.ucb1` (lines 67-72) with its default
`exploration_weight = 1.4` (the only value the engine uses) and
`epsilon = 0.01`; `pv` is `node.parent.visits`. -/
noncomputable def ucb1 (pv : Nat) (d : NodeData) : Priority :=
  if d.visits = 0 then .posInf
  else .val ((d.Q : ℝ) / (d.visits : ℝ) +
    1.4 * Real.sqrt (Real.log (pv : ℝ) / ((d.visits : ℝ) + 0.01)))

/-- The fold behind Python's `max(children, key=ucb1)`: keep the current
best, replacing it only on a strictly greater key, so ties go to the
earlier element.  Elements are carried with their child index. -/
noncomputable def selectFold (pv : Nat) : Nat × MTree → List (Nat × MTree) → Nat × MTree
  | best, [] => best
  | best, jc :: rest =>
    if Priority.lt (ucb1 pv best.2.data) (ucb1 pv jc.2.data) then selectFold pv jc rest
    else selectFold pv best rest

/-- `MCTS_v2.select` (lines 74-76) on a non-empty children list
`c0 :: cs`, returning the selected child together with its index. -/
noncomputable def selectIdx (pv : Nat) (c0 : MTree) (cs : List MTree) : Nat × MTree :=
  selectFold pv (0, c0) (enumFrom 1 cs)

/-- The descent loop of `mcts_trial` (lines 191-192):
`while current_node.children: current_node = self.select(current_node)`,
returning the path from the starting node down to the reached leaf.  The
`none` branch of the lookup is unreachable: the selected index always
addresses the selected child. -/
noncomputable def MTree.descend : MTree → List Nat
  | .node _ [] => []
  | .node d (c0 :: cs) =>
    match h : (c0 :: cs).get? (selectIdx d.visits c0 cs).1 with
    | some c => (selectIdx d.visits c0 cs).1 :: c.descend
    | none => []
termination_by t => sizeOf t
decreasing_by
  have hm : c ∈ c0 :: cs := List.get?_mem (by assumption)
  have := List.sizeOf_lt_of_mem hm
  simp only [MTree.node.sizeOf_spec]
  omega

/-- Result of the two-tier evaluation of one candidate: the sample tier's
`success_rate_number` and message, and the full tier's `status` string and
printable report. -/
structure EvalReport where
  successRateNumber : ℚ
  fullStatus : String
  testMessage : String
  fullReportText : String
deriving DecidableEq

/-- External collaborators of the engine: `choice msgs n i` is
`response.choices[i].message.content` of the Generator call requesting `n`
completions for `msgs`; `evalState` is the worker plus `Solution.eval`
pipeline applied to a node's state; `rootState` is the refined candidate
`zero_shot_initialization` stores in the root. -/
structure Oracle where
  choice : List ChatMessage → Nat → Nat → String
  evalState : String → EvalReport
  rootState : String

/-- Model of Python's `str.strip()` on completion text (line 91): drop
whitespace from both ends.  (`String.trim` of the core library computes
the same value but is compiled by well-founded recursion, which blocks
kernel evaluation on concrete runs, so the list-level equivalent is used.) -/
def stripString (s : String) : String :=
  ⟨((s.data.dropWhile Char.isWhitespace).reverse.dropWhile Char.isWhitespace).reverse⟩

/-- `MCTS_v2.expand` (lines 78-94): a no-op once `depth_limit` is reached,
otherwise build the feedback prompt and append `n = 2` children, one per
completion, in completion order, each stripped of surrounding whitespace. -/
def expand (oracle : Oracle) (depthLimit : Nat) (problemDescription : String)
    (t : MTree) (p : List Nat) : Option MTree :=
  if depthLimit ≤ (t.dataAt p).depth then some t
  else
    match buildPromptWithFeedback t p problemDescription with
    | none => none
    | some messages =>
      some ((List.range 2).foldl
        (fun acc i => acc.addChild p (stripString (oracle.choice messages 2 i))) t)

/-- The reward shaping of `MCTS_v2.simulate` (lines 137-149). -/
def simulateScore (successRate : ℚ) (fullStatus : String) : ℚ :=
  if successRate = 1 then
    if fullStatus = "timeout" then -0.2 else 1
  else
    if fullStatus = "timeout" then -0.2 else successRate

/-- Evaluation text left on the simulated node (line 135), overwritten at
line 141 when the samples all pass but the full run times out. -/
def timeoutEvaluation : String :=
  "The solution is correct but the algorithm TIMEOUT!!!! Try a faster solution@!!!!"

/-- Net evaluation text `simulate` stores on the node. -/
def simulateEvaluation (r : EvalReport) : String :=
  if r.successRateNumber = 1 ∧ r.fullStatus = "timeout" then timeoutEvaluation
  else "Sample test results: " ++ r.testMessage ++ "\nThe full test cases: " ++ r.fullReportText

/-- Modelled from the spec: `Solution.to_submit_signal` is produced by the
`Solution` class, which is not part of the sources; spec section 4.4 fixes
the success signal as a reward of exactly 1.0. -/
def toSubmitSignal (r : EvalReport) : Bool :=
  decide (simulateScore r.successRateNumber r.fullStatus = 1)

/-- `MCTS_v2.simulate` (lines 124-153): evaluate the node's state, store
the evaluation text on the node, backpropagate the shaped reward, and
report the submission signal. -/
def simulate (oracle : Oracle) (t : MTree) (p : List Nat) : MTree × Bool :=
  let report := oracle.evalState ((t.dataAt p).state)
  let t1 := t.setEvaluation p (simulateEvaluation report)
  let score := simulateScore report.successRateNumber report.fullStatus
  (t1.backpropagate p score, toSubmitSignal report)

/-- Result of simulating one expansion batch. -/
inductive BatchResult where
  | found : MTree → List Nat → BatchResult
  | done : MTree → BatchResult

/-- The tree carried by a batch result. -/
def BatchResult.tree : BatchResult → MTree
  | .found t _ => t
  | .done t => t

/-- The `for child in current_node.children` loop of `mcts_trial`
(lines 194-198): simulate the children of the node at `leaf` whose indices
are listed in `js`, in order, stopping at the first submission signal. -/
def simulateChildren (oracle : Oracle) : MTree → List Nat → List Nat → BatchResult
  | t, _, [] => .done t
  | t, leaf, j :: js =>
    let res := simulate oracle t (leaf ++ [j])
    if res.2 then .found res.1 (leaf ++ [j])
    else simulateChildren oracle res.1 leaf js

/-- Outcome of a search run: the accepted node (with the final tree), or
no solution within the step budget. -/
inductive TrialResult where
  | found : MTree → List Nat → TrialResult
  | noSolution : MTree → TrialResult

/-- The tree carried by a trial outcome. -/
def outcomeTree : TrialResult → MTree
  | .found t _ => t
  | .noSolution t => t

/-- The `while step < max_steps` loop of `MCTS_v2.mcts_trial`
(lines 188-201).  `cur` is the path of `current_node`, which persists
across iterations: each iteration descends from it to a leaf, expands the
leaf, simulates every child of the leaf in order, and returns the first
child whose simulation signals success; the leaf becomes the next
`current_node`.  A `none` result models the `TypeError` the source would
raise inside `build_prompt_with_feedback`. -/
noncomputable def mctsLoop (oracle : Oracle) (depthLimit : Nat) (problemDescription : String) :
    Nat → MTree → List Nat → Option TrialResult
  | 0, t, _ => some (.noSolution t)
  | steps + 1, t, cur =>
    let leaf := cur ++ (t.subtreeAt cur).descend
    match expand oracle depthLimit problemDescription t leaf with
    | none => none
    | some t1 =>
      match simulateChildren oracle t1 leaf (List.range ((t1.subtreeAt leaf).children.length)) with
      | .found t2 q => some (.found t2 q)
      | .done t2 => mctsLoop oracle depthLimit problemDescription steps t2 leaf

/-- `MCTS_v2.mcts_trial` (lines 185-201): initialize the root with the
oracle's refined first candidate (`zero_shot_initialization`) and run the
search loop for at most `maxSteps` iterations. -/
noncomputable def mctsTrial (oracle : Oracle) (depthLimit : Nat) (problemDescription : String)
    (maxSteps : Nat) : Option TrialResult :=
  mctsLoop oracle depthLimit problemDescription maxSteps
    (.node ⟨oracle.rootState, none, 0, 0, [], 0, 0⟩ []) []

/-- Every node other than the root carries an evaluation text. -/
def EvalAll (t : MTree) : Prop :=
  ∀ q, t.validPath q → q ≠ [] → ((t.dataAt q).evaluation).isSome = true

/-- The `Q` invariant of one payload: 0 while `reward_samples` is empty,
and otherwise exactly `(mean + min) / 2` of the samples. -/
def qInvData (d : NodeData) : Prop :=
  d.Q = if d.rewardSamples = [] then 0
    else (d.rewardSamples.sum / (d.rewardSamples.length : ℚ) + listMin d.rewardSamples) / 2

/-- The `Q` invariant over a whole tree. -/
def QAll (t : MTree) : Prop :=
  ∀ q, t.validPath q → qInvData (t.dataAt q)

mutual
def MTree.leafCount : MTree → Nat
  | .node _ [] => 1
  | .node _ (c :: cs) => leafCountList (c :: cs)
def leafCountList : List MTree → Nat
  | [] => 0
  | c :: cs => c.leafCount + leafCountList cs
end

mutual
def MTree.nodeCount : MTree → Nat
  | .node _ cs => 1 + nodeCountList cs
def nodeCountList : List MTree → Nat
  | [] => 0
  | c :: cs => c.nodeCount + nodeCountList cs
end

mutual
def MTree.leafDepths : MTree → List Nat
  | .node d [] => [d.depth]
  | .node _ (c :: cs) => leafDepthsList (c :: cs)
def leafDepthsList : List MTree → List Nat
  | [] => []
  | c :: cs => c.leafDepths ++ leafDepthsList cs
end

/-- Forget the `Q` field of every node in a tree (reset it to 0), keeping
the tree shape and every other payload field.  Defined through the
recursor so that it reduces on a concrete tree without evaluating the
rational arithmetic stored in the `Q` fields; it is used to state the
shape of a concretely computed search tree. -/
noncomputable def MTree.withQZero : MTree → MTree :=
  @MTree.rec (fun _ => MTree) (fun _ => List MTree)
    (fun d _ ih =>
      MTree.node ⟨d.state, d.evaluation, d.visits, d.score, d.rewardSamples, 0, d.depth⟩ ih)
    []
    (fun _ _ ihc ihcs => ihc :: ihcs)

/-- Deterministic stub collaborators for the end-to-end scenario: every
completion is the candidate `"X"`, and every evaluation reports sample
success rate 0.0 with full status `other-failure`. -/
def constOracle : Oracle :=
  ⟨fun _ _ _ => "X", fun _ => ⟨0, "other-failure", "m", "f"⟩, "R"⟩

/-- Evaluation text every simulated node receives under `constOracle`. -/
def constEvalText : String :=
  "Sample test results: m\nThe full test cases: f"

/-- The root tree of the `constOracle` run. -/
def c9T0 : MTree := .node ⟨"R", none, 0, 0, [], 0, 0⟩ []

/-- One loop iteration of the `constOracle` run starting from tree `t`
with the descent already resolved to the path `leaf`: expansion followed
by the simulation of the expansion batch.  Returns the input tree if
expansion fails (it never does in this run). -/
def c9Step (t : MTree) (leaf : List Nat) : MTree :=
  match expand constOracle 5 "P" t leaf with
  | none => t
  | some t1 =>
    (simulateChildren constOracle t1 leaf
      (List.range ((t1.subtreeAt leaf).children.length))).tree

/-- The tree after the first iteration of the `constOracle` run. -/
def c9T1 : MTree := c9Step c9T0 []

/-- The tree after the second iteration of the `constOracle` run. -/
def c9T2 : MTree := c9Step c9T1 [0]

/-- The tree after the third iteration of the `constOracle` run. -/
def c9TreeC : MTree := c9Step c9T2 [0, 0]

/-- The `Q`-forgetting view of the tree after the second iteration of the
`constOracle` run. -/
def c9T2Lit : MTree :=
  .node ⟨"R", none, 0, 0, [0, 0, 0, 0], 0, 0⟩
    [.node ⟨"X", some constEvalText, 0, 0, [0, 0, 0], 0, 1⟩
      [.node ⟨"X", some constEvalText, 0, 0, [0], 0, 2⟩ [],
       .node ⟨"X", some constEvalText, 0, 0, [0], 0, 2⟩ []],
     .node ⟨"X", some constEvalText, 0, 0, [0], 0, 1⟩ []]

/-- The `Q`-forgetting view of the final tree of the three-step
`constOracle` run: a chain, because the descent restarts from the
previously expanded node and all visit counters stay 0, so selection
always picks the first child. -/
def c9TreeLit : MTree :=
  .node ⟨"R", none, 0, 0, [0, 0, 0, 0, 0, 0], 0, 0⟩
    [.node ⟨"X", some constEvalText, 0, 0, [0, 0, 0, 0, 0], 0, 1⟩
      [.node ⟨"X", some constEvalText, 0, 0, [0, 0, 0], 0, 2⟩
        [.node ⟨"X", some constEvalText, 0, 0, [0], 0, 3⟩ [],
         .node ⟨"X", some constEvalText, 0, 0, [0], 0, 3⟩ []],
       .node ⟨"X", some constEvalText, 0, 0, [0], 0, 2⟩ []],
     .node ⟨"X", some constEvalText, 0, 0, [0], 0, 1⟩ []]

theorem listModify_get? (f : α → α) (i j : Nat) (l : List α) :
    (listModify f i l).get? j = if i = j then (l.get? j).map f else l.get? j := by
  induction l generalizing i j with
  | nil => cases i <;> cases j <;> simp [listModify]
  | cons a as ih =>
    cases i with
    | zero => cases j <;> simp [listModify]
    | succ i' =>
      cases j with
      | zero => simp [listModify]
      | succ j' => simpa [listModify, Nat.succ_inj] using ih i' j'

theorem listModify_length (f : α → α) (i : Nat) (l : List α) :
    (listModify f i l).length = l.length := by
  induction l generalizing i with
  | nil => simp [listModify]
  | cons a as ih => cases i <;> simp [listModify, ih]

theorem mem_enumFrom {x : Nat × α} :
    ∀ (l : List α) (i : Nat), x ∈ enumFrom i l →
      ∃ k, k < l.length ∧ x.1 = i + k ∧ l.get? k = some x.2 := by
  intro l
  induction l with
  | nil => intro i h; simp [enumFrom] at h
  | cons a as ih =>
    intro i h
    simp only [enumFrom, List.mem_cons] at h
    rcases h with h | h
    · exact ⟨0, by simp, by simp [h], by simp [h]⟩
    · obtain ⟨k, hk, h1, h2⟩ := ih (i + 1) h
      exact ⟨k + 1, by simpa using hk, by omega, by simpa using h2⟩

theorem enumFrom_of_get? {l : List α} {k : Nat} {a : α} (h : l.get? k = some a) :
    ∀ i, (i + k, a) ∈ enumFrom i l := by
  induction l generalizing k with
  | nil => simp at h
  | cons b bs ih =>
    intro i
    cases k with
    | zero =>
      simp only [List.get?_cons_zero, Option.some.injEq] at h
      simp [enumFrom, h]
    | succ k' =>
      simp only [List.get?_cons_succ] at h
      have := ih h (i + 1)
      simp only [enumFrom, List.mem_cons]
      right
      have : (i + 1 + k', a) ∈ enumFrom (i + 1) bs := this
      simpa [Nat.add_assoc, Nat.add_comm 1 k'] using this

theorem idxMono_enumFrom : ∀ (l : List MTree) (i j : Nat), j < i → idxMono j (enumFrom i l) := by
  intro l
  induction l with
  | nil => intro i j _; trivial
  | cons a as ih => intro i j h; exact ⟨h, ih (i + 1) i (by omega)⟩

theorem natRange_eq_range : ∀ (n s : Nat), natRange s n = (List.range n).map (fun k => s + k) := by
  intro n
  induction n with
  | zero => intro s; simp [natRange]
  | succ m ih =>
    intro s
    rw [natRange, List.range_succ_eq_map]
    simp only [List.map_cons, Nat.add_zero, List.map_map]
    rw [ih (s + 1)]
    congr 1
    apply List.map_congr_left
    intro a _
    simp [Function.comp]
    omega

theorem range_eq_natRange (n : Nat) : List.range n = natRange 0 n := by
  rw [natRange_eq_range]
  simp

theorem foldlMin_mem : ∀ (xs : List ℚ) (a : ℚ), xs.foldl min a = a ∨ xs.foldl min a ∈ xs := by
  intro xs
  induction xs with
  | nil => intro a; left; rfl
  | cons y ys ih =>
    intro a
    simp only [List.foldl_cons]
    rcases ih (min a y) with h | h
    · rcases min_choice a y with hc | hc
      · left; rw [h, hc]
      · right; rw [h, hc]; simp
    · right; simp [h]

theorem foldlMin_le_init : ∀ (xs : List ℚ) (a : ℚ), xs.foldl min a ≤ a := by
  intro xs
  induction xs with
  | nil => intro a; simp
  | cons y ys ih =>
    intro a
    simp only [List.foldl_cons]
    exact le_trans (ih (min a y)) (min_le_left a y)

theorem foldlMin_le_mem : ∀ (xs : List ℚ) (a y : ℚ), y ∈ xs → xs.foldl min a ≤ y := by
  intro xs
  induction xs with
  | nil => intro a y h; simp at h
  | cons z zs ih =>
    intro a y h
    simp only [List.foldl_cons]
    rcases List.mem_cons.mp h with h | h
    · subst h
      exact le_trans (foldlMin_le_init zs (min a y)) (min_le_right a y)
    · exact ih (min a z) y h

theorem listMin_mem (x : ℚ) (xs : List ℚ) : listMin (x :: xs) ∈ x :: xs := by
  have hl : listMin (x :: xs) = xs.foldl min x := rfl
  rcases foldlMin_mem xs x with h | h
  · rw [hl, h]; simp
  · rw [hl]; simp [h]

theorem listMin_le (x : ℚ) (xs : List ℚ) (y : ℚ) (h : y ∈ x :: xs) : listMin (x :: xs) ≤ y := by
  have hl : listMin (x :: xs) = xs.foldl min x := rfl
  rw [hl]
  rcases List.mem_cons.mp h with h | h
  · subst h; exact foldlMin_le_init xs y
  · exact foldlMin_le_mem xs x y h

theorem optionList_map_getD {α β : Type} (l : List α) (f : α → Option β) (dflt : β)
    (h : ∀ a ∈ l, (f a).isSome = true) :
    optionList (l.map f) = some (l.map (fun a => (f a).getD dflt)) := by
  induction l with
  | nil => rfl
  | cons a as ih =>
    obtain ⟨b, hb⟩ := Option.isSome_iff_exists.mp (h a (by simp))
    have hrest := ih (fun x hx => h x (by simp [hx]))
    rw [List.map_cons, hb]
    simp only [optionList, hrest]
    simp [hb]

theorem onPath_refl : ∀ (p : List Nat), onPath p p := by
  intro p
  induction p with
  | nil => trivial
  | cons i q ih => exact ⟨rfl, ih⟩

theorem onPath_nil (p : List Nat) : onPath [] p := trivial

theorem validPath_nil (t : MTree) : t.validPath [] := trivial

theorem validPath_onPath : ∀ (q p : List Nat) (t : MTree),
    t.validPath p → onPath q p → t.validPath q := by
  intro q
  induction q with
  | nil => intro p t _ _; trivial
  | cons i q' ih =>
    intro p t hp hq
    cases p with
    | nil => exact absurd hq (by simp [onPath])
    | cons j p' =>
      obtain ⟨hij, hq'⟩ := hq
      subst hij
      cases hc : t.children.get? i with
      | none => simp only [MTree.validPath, hc] at hp
      | some c =>
        simp only [MTree.validPath, hc] at hp ⊢
        exact ih p' c hp hq'

theorem subtreeAt_nil (t : MTree) : t.subtreeAt [] = t := rfl

theorem dataAt_nil (t : MTree) : t.dataAt [] = t.data := rfl

theorem subtreeAt_append : ∀ (p : List Nat) (t : MTree), t.validPath p →
    ∀ q, t.subtreeAt (p ++ q) = (t.subtreeAt p).subtreeAt q := by
  intro p
  induction p with
  | nil => intro t _ q; rfl
  | cons i p' ih =>
    intro t hp q
    cases hc : t.children.get? i with
    | none => simp only [MTree.validPath, hc] at hp
    | some c =>
      simp only [MTree.validPath, hc] at hp
      simp only [List.cons_append, MTree.subtreeAt, hc]
      exact ih c hp q

theorem dataAt_append : ∀ (p : List Nat) (t : MTree), t.validPath p →
    ∀ q, t.dataAt (p ++ q) = (t.subtreeAt p).dataAt q := by
  intro p
  induction p with
  | nil => intro t _ q; rfl
  | cons i p' ih =>
    intro t hp q
    cases hc : t.children.get? i with
    | none => simp only [MTree.validPath, hc] at hp
    | some c =>
      simp only [MTree.validPath, hc] at hp
      simp only [List.cons_append, MTree.dataAt, MTree.subtreeAt, hc]
      exact ih c hp q

theorem validPath_append : ∀ (p : List Nat) (t : MTree), t.validPath p →
    ∀ q, (t.validPath (p ++ q) ↔ (t.subtreeAt p).validPath q) := by
  intro p
  induction p with
  | nil => intro t _ q; rfl
  | cons i p' ih =>
    intro t hp q
    cases hc : t.children.get? i with
    | none => simp only [MTree.validPath, hc] at hp
    | some c =>
      simp only [MTree.validPath, hc] at hp
      simp only [List.cons_append, MTree.validPath, MTree.subtreeAt, hc]
      exact ih c hp q

theorem dataAt_eq_subtree_data : ∀ (p : List Nat) (t : MTree), t.validPath p →
    t.dataAt p = (t.subtreeAt p).data := by
  intro p
  induction p with
  | nil => intro t _; rfl
  | cons i p' ih =>
    intro t hp
    cases hc : t.children.get? i with
    | none => simp only [MTree.validPath, hc] at hp
    | some c =>
      simp only [MTree.validPath, hc] at hp
      simp only [MTree.dataAt, MTree.subtreeAt, hc]
      exact ih c hp

theorem data_node (d : NodeData) (cs : List MTree) : (MTree.node d cs).data = d := rfl

theorem children_node (d : NodeData) (cs : List MTree) : (MTree.node d cs).children = cs := rfl

theorem validPath_mapPath (f : NodeData → NodeData) :
    ∀ (q p : List Nat) (t : MTree), (t.mapPath f p).validPath q ↔ t.validPath q := by
  intro q
  induction q with
  | nil => intro p t; cases t with | node d cs => cases p <;> simp [MTree.mapPath, MTree.validPath]
  | cons j q' ih =>
    intro p t
    cases t with
    | node d cs =>
      cases p with
      | nil => simp only [MTree.mapPath]; rfl
      | cons i p' =>
        simp only [MTree.mapPath, MTree.validPath, children_node, listModify_get?]
        by_cases hij : i = j
        · subst hij
          simp only [if_pos rfl]
          cases hc : cs.get? i with
          | none => simp
          | some c => simpa using ih p' c
        · simp [if_neg hij]

theorem dataAt_mapPath_on (f : NodeData → NodeData) :
    ∀ (q p : List Nat) (t : MTree), t.validPath p → onPath q p →
      (t.mapPath f p).dataAt q = f (t.dataAt q) := by
  intro q
  induction q with
  | nil =>
    intro p t _ _
    cases t with | node d cs => cases p <;> simp [MTree.mapPath, MTree.dataAt, data_node]
  | cons j q' ih =>
    intro p t hp hq
    cases p with
    | nil => exact absurd hq (by simp [onPath])
    | cons i p' =>
      obtain ⟨hij, hq'⟩ := hq
      subst hij
      cases t with
      | node d cs =>
        cases hc : cs.get? j with
        | none => simp only [MTree.validPath, children_node, hc] at hp
        | some c =>
          simp only [MTree.validPath, children_node, hc] at hp
          simp only [MTree.mapPath, MTree.dataAt, children_node, listModify_get?, if_pos rfl, hc,
            Option.map_some']
          exact ih p' c hp hq'

theorem dataAt_mapPath_off (f : NodeData → NodeData) :
    ∀ (q p : List Nat) (t : MTree), t.validPath p → t.validPath q → ¬ onPath q p →
      (t.mapPath f p).dataAt q = t.dataAt q := by
  intro q
  induction q with
  | nil => intro p t _ _ hnot; exact absurd (onPath_nil p) hnot
  | cons j q' ih =>
    intro p t hp hq hnot
    cases t with
    | node d cs =>
      cases hc : cs.get? j with
      | none => simp only [MTree.validPath, children_node, hc] at hq
      | some c =>
        simp only [MTree.validPath, children_node, hc] at hq
        cases p with
        | nil =>
          simp only [MTree.mapPath, MTree.dataAt, children_node, hc]
        | cons i p' =>
          by_cases hij : i = j
          · subst hij
            have hq'not : ¬ onPath q' p' := fun h => hnot ⟨rfl, h⟩
            simp only [MTree.validPath, children_node, hc] at hp
            simp only [MTree.mapPath, MTree.dataAt, children_node, listModify_get?, if_pos rfl,
              hc, Option.map_some']
            exact ih p' c hp hq hq'not
          · simp only [MTree.mapPath, MTree.dataAt, children_node, listModify_get?, if_neg hij, hc]

theorem validPath_modifyDataAt (f : NodeData → NodeData) :
    ∀ (q p : List Nat) (t : MTree), (t.modifyDataAt f p).validPath q ↔ t.validPath q := by
  intro q
  induction q with
  | nil =>
    intro p t
    cases t with | node d cs => cases p <;> simp [MTree.modifyDataAt, MTree.validPath]
  | cons j q' ih =>
    intro p t
    cases t with
    | node d cs =>
      cases p with
      | nil => simp only [MTree.modifyDataAt]; rfl
      | cons i p' =>
        simp only [MTree.modifyDataAt, MTree.validPath, children_node, listModify_get?]
        by_cases hij : i = j
        · subst hij
          simp only [if_pos rfl]
          cases hc : cs.get? i with
          | none => simp
          | some c => simpa using ih p' c
        · simp [if_neg hij]

theorem dataAt_modifyDataAt_self (f : NodeData → NodeData) :
    ∀ (p : List Nat) (t : MTree), t.validPath p →
      (t.modifyDataAt f p).dataAt p = f (t.dataAt p) := by
  intro p
  induction p with
  | nil => intro t _; cases t with | node d cs => simp [MTree.modifyDataAt, MTree.dataAt, data_node]
  | cons i p' ih =>
    intro t hp
    cases t with
    | node d cs =>
      cases hc : cs.get? i with
      | none => simp only [MTree.validPath, children_node, hc] at hp
      | some c =>
        simp only [MTree.validPath, children_node, hc] at hp
        simp only [MTree.modifyDataAt, MTree.dataAt, children_node, listModify_get?, if_pos rfl,
          hc, Option.map_some']
        exact ih c hp

theorem dataAt_modifyDataAt_off (f : NodeData → NodeData) :
    ∀ (q p : List Nat) (t : MTree), t.validPath q → q ≠ p →
      (t.modifyDataAt f p).dataAt q = t.dataAt q := by
  intro q
  induction q with
  | nil =>
    intro p t _ hne
    cases t with
    | node d cs =>
      cases p with
      | nil => exact absurd rfl hne
      | cons i p' => simp [MTree.modifyDataAt, MTree.dataAt, data_node]
  | cons j q' ih =>
    intro p t hq hne
    cases t with
    | node d cs =>
      cases hc : cs.get? j with
      | none => simp only [MTree.validPath, children_node, hc] at hq
      | some c =>
        simp only [MTree.validPath, children_node, hc] at hq
        cases p with
        | nil => simp only [MTree.modifyDataAt, MTree.dataAt, children_node, hc]
        | cons i p' =>
          by_cases hij : i = j
          · subst hij
            have hq'ne : q' ≠ p' := fun h => hne (by rw [h])
            simp only [MTree.modifyDataAt, MTree.dataAt, children_node, listModify_get?,
              if_pos rfl, hc, Option.map_some']
            exact ih p' c hq hq'ne
          · simp only [MTree.modifyDataAt, MTree.dataAt, children_node, listModify_get?,
              if_neg hij, hc]

theorem listModify_get?_self (f : α → α) (i : Nat) (l : List α) :
    (listModify f i l).get? i = (l.get? i).map f := by
  rw [listModify_get?]
  simp

theorem listModify_get?_ne (f : α → α) {i j : Nat} (h : i ≠ j) (l : List α) :
    (listModify f i l).get? j = l.get? j := by
  rw [listModify_get?]
  simp [h]

theorem validPath_addChild_iff (st : String) :
    ∀ (p : List Nat) (t : MTree), t.validPath p → ∀ q,
      ((t.addChild p st).validPath q ↔
        t.validPath q ∨ q = p ++ [(t.subtreeAt p).children.length]) := by
  intro p
  induction p with
  | nil =>
    intro t _ q
    cases t with
    | node d cs =>
      cases q with
      | nil => simp [MTree.addChild, MTree.validPath]
      | cons j q' =>
        simp only [MTree.addChild, MTree.validPath, children_node, MTree.subtreeAt,
          List.nil_append]
        rcases lt_trichotomy j cs.length with hj | hj | hj
        · rw [List.get?_append hj]
          cases hc : cs.get? j with
          | none => exfalso; have := List.get?_eq_none.mp hc; omega
          | some c =>
            constructor
            · intro hv; exact Or.inl hv
            · rintro (hv | hv)
              · exact hv
              · exfalso; simp only [List.cons.injEq] at hv; omega
        · subst hj
          have hleft : (cs ++ [newNode st (d.depth + 1)]).get? cs.length =
              some (newNode st (d.depth + 1)) := by
            rw [List.get?_append_right (le_refl _), Nat.sub_self]
            rfl
          have hnone : cs.get? cs.length = none := by
            rw [List.get?_eq_none]
          rw [hleft, hnone]
          constructor
          · intro hv
            right
            cases q' with
            | nil => rfl
            | cons k q'' =>
              exfalso
              simp [newNode, MTree.validPath, children_node] at hv
          · rintro (hv | hv)
            · exact absurd hv (by simp)
            · simp only [List.cons.injEq] at hv
              rw [hv.2]
              trivial
        · have h1 : (cs ++ [newNode st (d.depth + 1)]).get? j = none := by
            rw [List.get?_eq_none]
            simp only [List.length_append, List.length_cons, List.length_nil]
            omega
          have h2 : cs.get? j = none := by
            rw [List.get?_eq_none]
            omega
          rw [h1, h2]
          constructor
          · intro hv; exact absurd hv (by simp)
          · rintro (hv | hv)
            · exact absurd hv (by simp)
            · exfalso; simp only [List.cons.injEq] at hv; omega
  | cons i p' ih =>
    intro t hp q
    cases t with
    | node d cs =>
      cases hc : cs.get? i with
      | none => simp only [MTree.validPath, children_node, hc] at hp
      | some c =>
        simp only [MTree.validPath, children_node, hc] at hp
        have hsub : (MTree.node d cs).subtreeAt (i :: p') = c.subtreeAt p' := by
          simp only [MTree.subtreeAt, children_node, hc]
        rw [hsub]
        cases q with
        | nil => simp [MTree.addChild, MTree.validPath]
        | cons j q' =>
          by_cases hij : i = j
          · subst hij
            have hl : (listModify (fun c => c.addChild p' st) i cs).get? i =
                some (c.addChild p' st) := by
              rw [listModify_get?_self, hc]
              rfl
            simp only [MTree.addChild, MTree.validPath, children_node, hl, hc]
            rw [ih c hp q']
            simp
          · have hl := listModify_get?_ne (fun c => c.addChild p' st) hij cs
            simp only [MTree.addChild, MTree.validPath, children_node, hl]
            constructor
            · intro hv; exact Or.inl hv
            · rintro (hv | hv)
              · exact hv
              · exfalso
                simp only [List.cons_append, List.cons.injEq] at hv
                exact hij hv.1.symm

theorem dataAt_addChild (st : String) :
    ∀ (q p : List Nat) (t : MTree), t.validPath q →
      (t.addChild p st).dataAt q = t.dataAt q := by
  intro q
  induction q with
  | nil =>
    intro p t _
    cases t with | node d cs => cases p <;> simp [MTree.addChild, MTree.dataAt, data_node]
  | cons j q' ih =>
    intro p t hq
    cases t with
    | node d cs =>
      cases hc : cs.get? j with
      | none => simp only [MTree.validPath, children_node, hc] at hq
      | some c =>
        simp only [MTree.validPath, children_node, hc] at hq
        cases p with
        | nil =>
          have hj : j < cs.length := (List.get?_eq_some.mp hc).fst
          simp only [MTree.addChild, MTree.dataAt, children_node, List.get?_append hj, hc]
        | cons i p' =>
          by_cases hij : i = j
          · subst hij
            have hl : (listModify (fun c => c.addChild p' st) i cs).get? i =
                some (c.addChild p' st) := by
              rw [listModify_get?_self, hc]
              rfl
            simp only [MTree.addChild, MTree.dataAt, children_node, hl, hc]
            exact ih p' c hq
          · have hl := listModify_get?_ne (fun c => c.addChild p' st) hij cs
            simp only [MTree.addChild, MTree.dataAt, children_node, hl, hc]

theorem children_addChild_self (st : String) :
    ∀ (p : List Nat) (t : MTree), t.validPath p →
      ((t.addChild p st).subtreeAt p).children =
        (t.subtreeAt p).children ++ [newNode st ((t.dataAt p).depth + 1)] := by
  intro p
  induction p with
  | nil =>
    intro t _
    cases t with
    | node d cs =>
      simp [MTree.addChild, MTree.subtreeAt, MTree.dataAt, data_node, children_node]
  | cons i p' ih =>
    intro t hp
    cases t with
    | node d cs =>
      cases hc : cs.get? i with
      | none => simp only [MTree.validPath, children_node, hc] at hp
      | some c =>
        simp only [MTree.validPath, children_node, hc] at hp
        have hl : (listModify (fun c => c.addChild p' st) i cs).get? i =
            some (c.addChild p' st) := by
          rw [listModify_get?_self, hc]
          rfl
        simp only [MTree.addChild, MTree.subtreeAt, MTree.dataAt, children_node, hl, hc]
        exact ih c hp

theorem dataAt_addChild_new (st : String) (p : List Nat) (t : MTree) (hp : t.validPath p) :
    (t.addChild p st).dataAt (p ++ [(t.subtreeAt p).children.length]) =
      ⟨st, none, 0, 0, [], 0, (t.dataAt p).depth + 1⟩ := by
  have hvp : (t.addChild p st).validPath p :=
    (validPath_addChild_iff st p t hp p).mpr (Or.inl hp)
  rw [dataAt_append p (t.addChild p st) hvp]
  have hlen : ((t.addChild p st).subtreeAt p).children.get?
      ((t.subtreeAt p).children.length) = some (newNode st ((t.dataAt p).depth + 1)) := by
    rw [children_addChild_self st p t hp, List.get?_append_right (le_refl _), Nat.sub_self]
    rfl
  simp only [MTree.dataAt, hlen]
  rfl

theorem Priority.lt_trans' : ∀ {a b c : Priority}, a.lt b → b.lt c → a.lt c := by
  intro a b c hab hbc
  cases a <;> cases b <;> cases c <;> simp [Priority.lt] at *
  exact lt_trans hab hbc

theorem Priority.lt_of_lt_of_ge : ∀ {a b c : Priority}, a.lt b → ¬ c.lt b → a.lt c := by
  intro a b c hab hcb
  cases a <;> cases b <;> cases c <;> simp [Priority.lt] at *
  exact lt_of_lt_of_le hab hcb

theorem Priority.lt_of_ge_of_lt : ∀ {a b c : Priority}, ¬ a.lt b → a.lt c → b.lt c := by
  intro a b c hab hac
  cases a <;> cases b <;> cases c <;> simp [Priority.lt] at *
  exact lt_of_le_of_lt hab hac

theorem Priority.lt_irrefl' : ∀ (x : Priority), ¬ x.lt x := by
  intro x
  cases x with
  | val v => exact lt_irrefl v
  | posInf => exact fun h => h

theorem Priority.eq_posInf_of_not_lt : ∀ {x : Priority}, ¬ x.lt Priority.posInf → x = Priority.posInf := by
  intro x h
  cases x with
  | val v => exact absurd trivial h
  | posInf => rfl

theorem ucb1_of_visits_zero (pv : Nat) (d : NodeData) (h : d.visits = 0) :
    ucb1 pv d = Priority.posInf := by
  simp [ucb1, h]

theorem ucb1_of_visits_ne (pv : Nat) (d : NodeData) (h : d.visits ≠ 0) :
    ucb1 pv d = Priority.val ((d.Q : ℝ) / (d.visits : ℝ) +
      1.4 * Real.sqrt (Real.log (pv : ℝ) / ((d.visits : ℝ) + 0.01))) := by
  simp [ucb1, h]

theorem ucb1_posInf_iff (pv : Nat) (d : NodeData) :
    ucb1 pv d = Priority.posInf ↔ d.visits = 0 := by
  constructor
  · intro h
    by_contra hv
    rw [ucb1_of_visits_ne pv d hv] at h
    exact Priority.noConfusion h
  · exact ucb1_of_visits_zero pv d

theorem selectFold_eq_or_mem_strict (pv : Nat) :
    ∀ (l : List (Nat × MTree)) (b : Nat × MTree),
      selectFold pv b l = b ∨ (selectFold pv b l ∈ l ∧
        Priority.lt (ucb1 pv b.2.data) (ucb1 pv (selectFold pv b l).2.data)) := by
  intro l
  induction l with
  | nil => intro b; left; rfl
  | cons jc rest ih =>
    intro b
    by_cases hlt : Priority.lt (ucb1 pv b.2.data) (ucb1 pv jc.2.data)
    · simp only [selectFold, if_pos hlt]
      rcases ih jc with h | ⟨hm, hs⟩
      · right; exact ⟨by simp [h], by rw [h]; exact hlt⟩
      · right; exact ⟨by simp [hm], Priority.lt_trans' hlt hs⟩
    · simp only [selectFold, if_neg hlt]
      rcases ih b with h | ⟨hm, hs⟩
      · left; exact h
      · right; exact ⟨by simp [hm], hs⟩

theorem selectFold_eq_or_mem (pv : Nat) (l : List (Nat × MTree)) (b : Nat × MTree) :
    selectFold pv b l = b ∨ selectFold pv b l ∈ l := by
  rcases selectFold_eq_or_mem_strict pv l b with h | ⟨hm, _⟩
  · left; exact h
  · right; exact hm

theorem selectFold_max (pv : Nat) :
    ∀ (l : List (Nat × MTree)) (b : Nat × MTree),
      ¬ Priority.lt (ucb1 pv (selectFold pv b l).2.data) (ucb1 pv b.2.data) ∧
      ∀ x ∈ l, ¬ Priority.lt (ucb1 pv (selectFold pv b l).2.data) (ucb1 pv x.2.data) := by
  intro l
  induction l with
  | nil =>
    intro b
    exact ⟨Priority.lt_irrefl' _, by simp⟩
  | cons jc rest ih =>
    intro b
    by_cases hlt : Priority.lt (ucb1 pv b.2.data) (ucb1 pv jc.2.data)
    · simp only [selectFold, if_pos hlt]
      obtain ⟨h1, h2⟩ := ih jc
      refine ⟨?_, ?_⟩
      · intro h
        exact h1 (Priority.lt_trans' h hlt)
      · intro x hx
        rcases List.mem_cons.mp hx with hx | hx
        · rw [hx]; exact h1
        · exact h2 x hx
    · simp only [selectFold, if_neg hlt]
      obtain ⟨h1, h2⟩ := ih b
      refine ⟨h1, ?_⟩
      intro x hx
      rcases List.mem_cons.mp hx with hx | hx
      · rw [hx]
        intro h
        exact h1 (Priority.lt_of_lt_of_ge h hlt)
      · exact h2 x hx

theorem idxMono_anti : ∀ (l : List (Nat × MTree)) (i j : Nat), j ≤ i → idxMono i l → idxMono j l := by
  intro l
  induction l with
  | nil => intro i j _ _; trivial
  | cons jc rest _ =>
    intro i j hji h
    have h' : i < jc.1 ∧ idxMono jc.1 rest := h
    exact ⟨by omega, h'.2⟩

theorem selectFold_earlier (pv : Nat) :
    ∀ (l : List (Nat × MTree)) (b : Nat × MTree), idxMono b.1 l →
      ∀ j c, ((j, c) = b ∨ (j, c) ∈ l) → j < (selectFold pv b l).1 →
        Priority.lt (ucb1 pv c.data) (ucb1 pv (selectFold pv b l).2.data) := by
  intro l
  induction l with
  | nil =>
    intro b _ j c hm hj
    rcases hm with hm | hm
    · exfalso
      have : j = b.1 := by rw [← hm]
      simp only [selectFold] at hj
      omega
    · simp at hm
  | cons jc rest ih =>
    intro b hmono j c hm hj
    have hmono' : b.1 < jc.1 ∧ idxMono jc.1 rest := hmono
    obtain ⟨hmono1, hmono2⟩ := hmono'
    by_cases hlt : Priority.lt (ucb1 pv b.2.data) (ucb1 pv jc.2.data)
    · simp only [selectFold, if_pos hlt] at hj ⊢
      rcases hm with hm | hm
      · have hcb : c = b.2 := by rw [← hm]
        rw [hcb]
        have hmax := (selectFold_max pv rest jc).1
        exact Priority.lt_of_lt_of_ge hlt hmax
      · exact ih jc hmono2 j c (List.mem_cons.mp hm) hj
    · simp only [selectFold, if_neg hlt] at hj ⊢
      rcases hm with hm | hm
      · exact ih b (idxMono_anti rest jc.1 b.1 (le_of_lt hmono1) hmono2) j c (Or.inl hm) hj
      · rcases List.mem_cons.mp hm with hm | hm
        · have hjjc : j = jc.1 := by rw [← hm]
          have hcjc : c = jc.2 := by rw [← hm]
          rcases selectFold_eq_or_mem_strict pv rest b with he | ⟨_, hs⟩
          · exfalso
            rw [he] at hj
            omega
          · rw [hcjc]
            exact Priority.lt_of_ge_of_lt hlt hs
        · exact ih b (idxMono_anti rest jc.1 b.1 (le_of_lt hmono1) hmono2) j c (Or.inr hm) hj

theorem mem_enumFrom_of_mem {a : α} : ∀ (l : List α) (i : Nat), a ∈ l → ∃ j, (j, a) ∈ enumFrom i l := by
  intro l
  induction l with
  | nil => intro i h; simp at h
  | cons b bs ih =>
    intro i h
    rcases List.mem_cons.mp h with h | h
    · exact ⟨i, by simp [enumFrom, h]⟩
    · obtain ⟨j, hj⟩ := ih (i + 1) h
      exact ⟨j, by simp [enumFrom, hj]⟩

theorem selectIdx_get? (pv : Nat) (c0 : MTree) (cs : List MTree) :
    (c0 :: cs).get? (selectIdx pv c0 cs).1 = some (selectIdx pv c0 cs).2 := by
  unfold selectIdx
  rcases selectFold_eq_or_mem pv (enumFrom 1 cs) (0, c0) with h | h
  · rw [h]; rfl
  · obtain ⟨k, _, h1, h2⟩ := mem_enumFrom _ _ h
    rw [h1, Nat.add_comm 1 k]
    simpa using h2

theorem selectIdx_mem (pv : Nat) (c0 : MTree) (cs : List MTree) :
    (selectIdx pv c0 cs).2 ∈ c0 :: cs :=
  List.get?_mem (selectIdx_get? pv c0 cs)

theorem selectIdx_max (pv : Nat) (c0 : MTree) (cs : List MTree) :
    ∀ c ∈ c0 :: cs,
      ¬ Priority.lt (ucb1 pv (selectIdx pv c0 cs).2.data) (ucb1 pv c.data) := by
  intro c hc
  obtain ⟨h1, h2⟩ := selectFold_max pv (enumFrom 1 cs) (0, c0)
  rcases List.mem_cons.mp hc with hc | hc
  · rw [hc]; exact h1
  · obtain ⟨j, hj⟩ := mem_enumFrom_of_mem cs 1 hc
    exact h2 (j, c) hj

theorem selectIdx_earlier (pv : Nat) (c0 : MTree) (cs : List MTree) :
    ∀ k ck, (c0 :: cs).get? k = some ck → k < (selectIdx pv c0 cs).1 →
      Priority.lt (ucb1 pv ck.data) (ucb1 pv (selectIdx pv c0 cs).2.data) := by
  intro k ck hk hlt
  have hmono : idxMono (0 : Nat) (enumFrom 1 cs) := idxMono_enumFrom cs 1 0 (by omega)
  apply selectFold_earlier pv (enumFrom 1 cs) (0, c0) hmono k ck _ hlt
  cases k with
  | zero =>
    left
    simp only [List.get?_cons_zero, Option.some.injEq] at hk
    rw [hk]
  | succ m =>
    right
    simp only [List.get?_cons_succ] at hk
    have := enumFrom_of_get? hk 1
    simpa [Nat.add_comm] using this

theorem selectIdx_unvisited (pv : Nat) (c0 : MTree) (cs : List MTree)
    (h : ∃ c ∈ c0 :: cs, c.data.visits = 0) :
    (selectIdx pv c0 cs).2.data.visits = 0 := by
  obtain ⟨c, hc, hv⟩ := h
  have hmax := selectIdx_max pv c0 cs c hc
  rw [ucb1_of_visits_zero pv c.data hv] at hmax
  have := Priority.eq_posInf_of_not_lt hmax
  exact (ucb1_posInf_iff pv _).mp this

theorem selectFold_keep (pv : Nat) :
    ∀ (l : List (Nat × MTree)) (b : Nat × MTree),
      (∀ jc ∈ l, ¬ Priority.lt (ucb1 pv b.2.data) (ucb1 pv jc.2.data)) →
      selectFold pv b l = b := by
  intro l
  induction l with
  | nil => intro b _; rfl
  | cons jc rest ih =>
    intro b h
    have h0 : ¬ Priority.lt (ucb1 pv b.2.data) (ucb1 pv jc.2.data) := h jc (by simp)
    simp only [selectFold, if_neg h0]
    exact ih b (fun x hx => h x (by simp [hx]))

theorem selectIdx_all_unvisited (pv : Nat) (c0 : MTree) (cs : List MTree)
    (h0 : c0.data.visits = 0) (h : ∀ c ∈ cs, c.data.visits = 0) :
    selectIdx pv c0 cs = (0, c0) := by
  unfold selectIdx
  apply selectFold_keep
  intro jc hjc
  obtain ⟨k, _, _, hk⟩ := mem_enumFrom _ _ hjc
  have hjv : jc.2.data.visits = 0 := h jc.2 (List.get?_mem hk)
  rw [ucb1_of_visits_zero pv _ h0, ucb1_of_visits_zero pv _ hjv]
  simp [Priority.lt]

theorem descend_nil (d : NodeData) : (MTree.node d []).descend = [] := by
  rw [MTree.descend]

theorem descend_cons (d : NodeData) (c0 : MTree) (cs : List MTree) :
    (MTree.node d (c0 :: cs)).descend =
      (selectIdx d.visits c0 cs).1 :: (selectIdx d.visits c0 cs).2.descend := by
  rw [MTree.descend]
  split
  · next c hc =>
    rw [selectIdx_get? d.visits c0 cs] at hc
    simp only [Option.some.injEq] at hc
    rw [hc]
  · next hc =>
    rw [selectIdx_get? d.visits c0 cs] at hc
    exact Option.noConfusion hc

theorem descend_spec_aux : ∀ (n : Nat) (t : MTree), sizeOf t ≤ n →
    t.validPath t.descend ∧ (t.subtreeAt t.descend).children = [] := by
  intro n
  induction n with
  | zero =>
    intro t h
    cases t with
    | node d cs => simp [MTree.node.sizeOf_spec] at h
  | succ m ih =>
    intro t h
    cases t with
    | node d cs =>
      cases cs with
      | nil =>
        rw [descend_nil]
        exact ⟨trivial, rfl⟩
      | cons c0 cs' =>
        rw [descend_cons]
        have hget := selectIdx_get? d.visits c0 cs'
        have hm : (selectIdx d.visits c0 cs').2 ∈ c0 :: cs' := selectIdx_mem d.visits c0 cs'
        have hsz : sizeOf (selectIdx d.visits c0 cs').2 ≤ m := by
          have := List.sizeOf_lt_of_mem hm
          simp only [MTree.node.sizeOf_spec] at h
          omega
        obtain ⟨hv, hl⟩ := ih (selectIdx d.visits c0 cs').2 hsz
        constructor
        · simp only [MTree.validPath, children_node, hget]
          exact hv
        · simp only [MTree.subtreeAt, children_node, hget]
          exact hl

theorem descend_validPath (t : MTree) : t.validPath t.descend :=
  (descend_spec_aux (sizeOf t) t (le_refl _)).1

theorem descend_leaf (t : MTree) : (t.subtreeAt t.descend).children = [] :=
  (descend_spec_aux (sizeOf t) t (le_refl _)).2

theorem addReward_state (d : NodeData) (r : ℚ) : (addReward d r).state = d.state := rfl

theorem addReward_evaluation (d : NodeData) (r : ℚ) :
    (addReward d r).evaluation = d.evaluation := rfl

theorem addReward_visits (d : NodeData) (r : ℚ) : (addReward d r).visits = d.visits := rfl

theorem addReward_score (d : NodeData) (r : ℚ) : (addReward d r).score = d.score := rfl

theorem addReward_rewardSamples (d : NodeData) (r : ℚ) :
    (addReward d r).rewardSamples = d.rewardSamples ++ [r] := rfl

theorem addReward_Q (d : NodeData) (r : ℚ) :
    (addReward d r).Q = ((d.rewardSamples ++ [r]).sum / ((d.rewardSamples ++ [r]).length : ℚ) +
      listMin (d.rewardSamples ++ [r])) / 2 := rfl

theorem qInvData_addReward (d : NodeData) (r : ℚ) : qInvData (addReward d r) := by
  unfold qInvData
  have hne : (addReward d r).rewardSamples ≠ [] := by
    rw [addReward_rewardSamples]
    simp
  rw [if_neg hne, addReward_rewardSamples, addReward_Q]

theorem qInvData_setEval (d : NodeData) (e : Option String) (h : qInvData d) :
    qInvData { d with evaluation := e } := h

theorem simulate_fst (O : Oracle) (t : MTree) (p : List Nat) :
    (simulate O t p).1 =
      (t.setEvaluation p (simulateEvaluation (O.evalState ((t.dataAt p).state)))).backpropagate p
        (simulateScore (O.evalState ((t.dataAt p).state)).successRateNumber
          (O.evalState ((t.dataAt p).state)).fullStatus) := rfl

theorem simulate_snd (O : Oracle) (t : MTree) (p : List Nat) :
    (simulate O t p).2 = toSubmitSignal (O.evalState ((t.dataAt p).state)) := rfl

theorem simulate_validPath (O : Oracle) (t : MTree) (p q : List Nat) :
    ((simulate O t p).1.validPath q ↔ t.validPath q) := by
  rw [simulate_fst]
  simp only [MTree.setEvaluation, MTree.backpropagate]
  rw [validPath_mapPath, validPath_modifyDataAt]

theorem simulate_state (O : Oracle) (t : MTree) (p q : List Nat)
    (hp : t.validPath p) (hq : t.validPath q) :
    ((simulate O t p).1.dataAt q).state = (t.dataAt q).state := by
  rw [simulate_fst]
  set e := simulateEvaluation (O.evalState ((t.dataAt p).state)) with he
  simp only [MTree.setEvaluation, MTree.backpropagate]
  have hp' := (validPath_modifyDataAt (fun d => { d with evaluation := some e }) p p t).mpr hp
  have hq' := (validPath_modifyDataAt (fun d => { d with evaluation := some e }) q p t).mpr hq
  by_cases hop : onPath q p
  · rw [dataAt_mapPath_on _ q p _ hp' hop, addReward_state]
    by_cases hqp : q = p
    · subst hqp
      rw [dataAt_modifyDataAt_self _ q t hq]
    · rw [dataAt_modifyDataAt_off _ q p t hq hqp]
  · rw [dataAt_mapPath_off _ q p _ hp' hq' hop]
    by_cases hqp : q = p
    · subst hqp
      exact absurd (onPath_refl q) hop
    · rw [dataAt_modifyDataAt_off _ q p t hq hqp]

theorem simulate_eval_at (O : Oracle) (t : MTree) (p : List Nat) (hp : t.validPath p) :
    ((simulate O t p).1.dataAt p).evaluation =
      some (simulateEvaluation (O.evalState ((t.dataAt p).state))) := by
  rw [simulate_fst]
  set e := simulateEvaluation (O.evalState ((t.dataAt p).state)) with he
  simp only [MTree.setEvaluation, MTree.backpropagate]
  have hp' := (validPath_modifyDataAt (fun d => { d with evaluation := some e }) p p t).mpr hp
  rw [dataAt_mapPath_on _ p p _ hp' (onPath_refl p), addReward_evaluation,
    dataAt_modifyDataAt_self _ p t hp]

theorem simulate_eval_off (O : Oracle) (t : MTree) (p q : List Nat)
    (hp : t.validPath p) (hq : t.validPath q) (hne : q ≠ p) :
    ((simulate O t p).1.dataAt q).evaluation = (t.dataAt q).evaluation := by
  rw [simulate_fst]
  set e := simulateEvaluation (O.evalState ((t.dataAt p).state)) with he
  simp only [MTree.setEvaluation, MTree.backpropagate]
  have hp' := (validPath_modifyDataAt (fun d => { d with evaluation := some e }) p p t).mpr hp
  have hq' := (validPath_modifyDataAt (fun d => { d with evaluation := some e }) q p t).mpr hq
  by_cases hop : onPath q p
  · rw [dataAt_mapPath_on _ q p _ hp' hop, addReward_evaluation,
      dataAt_modifyDataAt_off _ q p t hq hne]
  · rw [dataAt_mapPath_off _ q p _ hp' hq' hop, dataAt_modifyDataAt_off _ q p t hq hne]

theorem simulate_qinv (O : Oracle) (t : MTree) (p q : List Nat)
    (hp : t.validPath p) (hq : t.validPath q) (h : qInvData (t.dataAt q)) :
    qInvData ((simulate O t p).1.dataAt q) := by
  rw [simulate_fst]
  set e := simulateEvaluation (O.evalState ((t.dataAt p).state)) with he
  simp only [MTree.setEvaluation, MTree.backpropagate]
  have hp' := (validPath_modifyDataAt (fun d => { d with evaluation := some e }) p p t).mpr hp
  have hq' := (validPath_modifyDataAt (fun d => { d with evaluation := some e }) q p t).mpr hq
  by_cases hop : onPath q p
  · rw [dataAt_mapPath_on _ q p _ hp' hop]
    exact qInvData_addReward _ _
  · rw [dataAt_mapPath_off _ q p _ hp' hq' hop]
    by_cases hqp : q = p
    · subst hqp
      rw [dataAt_modifyDataAt_self _ q t hq]
      exact qInvData_setEval _ _ h
    · rw [dataAt_modifyDataAt_off _ q p t hq hqp]
      exact h

theorem simulateChildren_noSignal (O : Oracle)
    (h : ∀ st, toSubmitSignal (O.evalState st) = false) :
    ∀ (js : List Nat) (t : MTree) (leaf : List Nat),
      ∃ t', simulateChildren O t leaf js = BatchResult.done t' := by
  intro js
  induction js with
  | nil => intro t leaf; exact ⟨t, rfl⟩
  | cons j js' ih =>
    intro t leaf
    obtain ⟨t', ht⟩ := ih (simulate O t (leaf ++ [j])).1 leaf
    refine ⟨t', ?_⟩
    simp only [simulateChildren]
    have hsig : (simulate O t (leaf ++ [j])).2 = false := by
      rw [simulate_snd]
      exact h _
    rw [hsig]
    simpa using ht

theorem simulateChildren_done_props (O : Oracle) :
    ∀ (js : List Nat) (t : MTree) (leaf : List Nat) (t' : MTree),
      (∀ j ∈ js, t.validPath (leaf ++ [j])) →
      simulateChildren O t leaf js = BatchResult.done t' →
      (∀ q, (t'.validPath q ↔ t.validPath q)) ∧
      (∀ q, t.validPath q → (t'.dataAt q).state = (t.dataAt q).state) ∧
      (∀ q, t.validPath q →
        ((t.dataAt q).evaluation.isSome = true ∨ ∃ j ∈ js, q = leaf ++ [j]) →
        ((t'.dataAt q).evaluation).isSome = true) ∧
      (∀ q, t.validPath q → qInvData (t.dataAt q) → qInvData (t'.dataAt q)) := by
  intro js
  induction js with
  | nil =>
    intro t leaf t' _ heq
    simp only [simulateChildren, BatchResult.done.injEq] at heq
    subst heq
    refine ⟨fun q => Iff.rfl, fun q _ => rfl, ?_, fun q _ h => h⟩
    intro q _ h
    rcases h with h | h
    · exact h
    · simp at h
  | cons j js' ih =>
    intro t leaf t' hval heq
    simp only [simulateChildren] at heq
    by_cases hsig : (simulate O t (leaf ++ [j])).2 = true
    · rw [if_pos hsig] at heq
      exact absurd heq (by simp)
    · rw [if_neg hsig] at heq
      have hvj : t.validPath (leaf ++ [j]) := hval j (by simp)
      have hval' : ∀ k ∈ js', (simulate O t (leaf ++ [j])).1.validPath (leaf ++ [k]) := by
        intro k hk
        rw [simulate_validPath]
        exact hval k (by simp [hk])
      obtain ⟨ih1, ih2, ih3, ih4⟩ := ih (simulate O t (leaf ++ [j])).1 leaf t' hval' heq
      refine ⟨?_, ?_, ?_, ?_⟩
      · intro q
        rw [ih1 q, simulate_validPath]
      · intro q hq
        rw [ih2 q ((simulate_validPath O t (leaf ++ [j]) q).mpr hq),
          simulate_state O t (leaf ++ [j]) q hvj hq]
      · intro q hq hcase
        apply ih3 q ((simulate_validPath O t (leaf ++ [j]) q).mpr hq)
        rcases hcase with hcase | ⟨k, hk, hqeq⟩
        · left
          by_cases hqp : q = leaf ++ [j]
          · subst hqp
            rw [simulate_eval_at O t (leaf ++ [j]) hvj]
            rfl
          · rw [simulate_eval_off O t (leaf ++ [j]) q hvj hq hqp]
            exact hcase
        · rcases List.mem_cons.mp hk with hk | hk
          · left
            rw [hqeq, hk]
            rw [simulate_eval_at O t (leaf ++ [j]) hvj]
            rfl
          · right
            exact ⟨k, hk, hqeq⟩
      · intro q hq hqi
        exact ih4 q ((simulate_validPath O t (leaf ++ [j]) q).mpr hq)
          (simulate_qinv O t (leaf ++ [j]) q hvj hq hqi)

theorem simulateChildren_found_props (O : Oracle) :
    ∀ (n s : Nat) (t : MTree) (leaf : List Nat) (t' : MTree) (q : List Nat),
      (∀ j, s ≤ j → j < s + n → t.validPath (leaf ++ [j])) →
      simulateChildren O t leaf (natRange s n) = BatchResult.found t' q →
      ∃ j, s ≤ j ∧ j < s + n ∧ q = leaf ++ [j] ∧
        toSubmitSignal (O.evalState ((t.dataAt (leaf ++ [j])).state)) = true ∧
        (∀ k, s ≤ k → k < j →
          toSubmitSignal (O.evalState ((t.dataAt (leaf ++ [k])).state)) = false) ∧
        (∀ r, (t'.validPath r ↔ t.validPath r)) ∧
        (∀ r, t.validPath r → (t'.dataAt r).state = (t.dataAt r).state) ∧
        (∀ k, j < k → k < s + n →
          (t'.dataAt (leaf ++ [k])).evaluation = (t.dataAt (leaf ++ [k])).evaluation) ∧
        (∀ r, t.validPath r → qInvData (t.dataAt r) → qInvData (t'.dataAt r)) := by
  intro n
  induction n with
  | zero =>
    intro s t leaf t' q _ heq
    simp [natRange, simulateChildren] at heq
  | succ m ih =>
    intro s t leaf t' q hval heq
    rw [natRange] at heq
    simp only [simulateChildren] at heq
    have hvs : t.validPath (leaf ++ [s]) := hval s (le_refl s) (by omega)
    by_cases hsig : (simulate O t (leaf ++ [s])).2 = true
    · rw [if_pos hsig] at heq
      simp only [BatchResult.found.injEq] at heq
      obtain ⟨ht', hq⟩ := heq
      subst ht'
      subst hq
      refine ⟨s, le_refl s, by omega, rfl, ?_, ?_, ?_, ?_, ?_, ?_⟩
      · rw [← simulate_snd]
        exact hsig
      · intro k hk1 hk2
        omega
      · intro r
        exact simulate_validPath O t (leaf ++ [s]) r
      · intro r hr
        exact simulate_state O t (leaf ++ [s]) r hvs hr
      · intro k hk1 hk2
        have hne : leaf ++ [k] ≠ leaf ++ [s] := by
          intro hcon
          have : k = s := by simpa using hcon
          omega
        exact simulate_eval_off O t (leaf ++ [s]) (leaf ++ [k]) hvs
          (hval k (by omega) (by omega)) hne
      · intro r hr hqi
        exact simulate_qinv O t (leaf ++ [s]) r hvs hr hqi
    · rw [if_neg hsig] at heq
      have hval' : ∀ j, s + 1 ≤ j → j < s + 1 + m →
          (simulate O t (leaf ++ [s])).1.validPath (leaf ++ [j]) := by
        intro j h1 h2
        rw [simulate_validPath]
        exact hval j (by omega) (by omega)
      obtain ⟨j, hj1, hj2, hqeq, hsigj, hearlier, hvalid, hstate, heval, hqinv⟩ :=
        ih (s + 1) (simulate O t (leaf ++ [s])).1 leaf t' q hval' heq
      have hvj : t.validPath (leaf ++ [j]) := hval j (by omega) (by omega)
      refine ⟨j, by omega, by omega, hqeq, ?_, ?_, ?_, ?_, ?_, ?_⟩
      · rw [← simulate_state O t (leaf ++ [s]) (leaf ++ [j]) hvs hvj]
        exact hsigj
      · intro k hk1 hk2
        by_cases hks : k = s
        · subst hks
          rw [← simulate_snd] at *
          simpa using hsig
        · have hvk : t.validPath (leaf ++ [k]) := hval k (by omega) (by omega)
          rw [← simulate_state O t (leaf ++ [s]) (leaf ++ [k]) hvs hvk]
          exact hearlier k (by omega) hk2
      · intro r
        rw [hvalid r, simulate_validPath]
      · intro r hr
        rw [hstate r ((simulate_validPath O t (leaf ++ [s]) r).mpr hr),
          simulate_state O t (leaf ++ [s]) r hvs hr]
      · intro k hk1 hk2
        have hvk : t.validPath (leaf ++ [k]) := hval k (by omega) (by omega)
        have hne : leaf ++ [k] ≠ leaf ++ [s] := by
          intro hcon
          have : k = s := by simpa using hcon
          omega
        rw [heval k hk1 (by omega),
          simulate_eval_off O t (leaf ++ [s]) (leaf ++ [k]) hvs hvk hne]
      · intro r hr hqi
        exact hqinv r ((simulate_validPath O t (leaf ++ [s]) r).mpr hr)
          (simulate_qinv O t (leaf ++ [s]) r hvs hr hqi)

theorem nodesAlong_eq : ∀ (p : List Nat) (t : MTree), t.validPath p →
    nodesAlong t p = (ancestorPaths p).map (t.dataAt ·) := by
  intro p
  induction p with
  | nil => intro t _; rfl
  | cons i p' ih =>
    intro t hp
    cases hc : t.children.get? i with
    | none => simp only [MTree.validPath, hc] at hp
    | some c =>
      simp only [MTree.validPath, hc] at hp
      simp only [nodesAlong, hc, ancestorPaths, List.map_cons, List.map_map]
      have hcomp : List.map ((fun x => t.dataAt x) ∘ fun x => i :: x) (ancestorPaths p') =
          List.map (fun q => c.dataAt q) (ancestorPaths p') := by
        apply List.map_congr_left
        intro q _
        simp only [Function.comp_apply, MTree.dataAt, hc]
      rw [ih c hp, hcomp]
      rfl

theorem ancestorPaths_onPath : ∀ (p : List Nat) (q : List Nat),
    q ∈ ancestorPaths p → onPath q p := by
  intro p
  induction p with
  | nil =>
    intro q hq
    simp only [ancestorPaths, List.mem_singleton] at hq
    subst hq
    trivial
  | cons i p' ih =>
    intro q hq
    simp only [ancestorPaths, List.mem_cons, List.mem_map] at hq
    rcases hq with hq | ⟨q', hq', hqeq⟩
    · subst hq; trivial
    · subst hqeq
      exact ⟨rfl, ih q' hq'⟩

theorem mem_drop_one_ancestorPaths : ∀ (p q : List Nat),
    q ∈ (ancestorPaths p).drop 1 → q ≠ [] ∧ q ∈ ancestorPaths p := by
  intro p q hq
  cases p with
  | nil => simp [ancestorPaths] at hq
  | cons i p' =>
    simp only [ancestorPaths, List.drop_succ_cons, List.drop_zero, List.mem_map] at hq
    obtain ⟨q', hq', hqeq⟩ := hq
    subst hqeq
    refine ⟨by simp, ?_⟩
    simp only [ancestorPaths, List.mem_cons, List.mem_map]
    right
    exact ⟨q', hq', rfl⟩

theorem buildPrompt_eq (t : MTree) (p : List Nat) (pb : String)
    (h : ∀ d ∈ (nodesAlong t p).drop 1, (d.evaluation).isSome = true) :
    buildPromptWithFeedback t p pb =
      some (ChatMessage.mk "user" (problemPrompt pb) ::
        ((nodesAlong t p).drop 1).map (fun d =>
          ChatMessage.mk "assistant" (summarizeEvaluation d.state ++ (d.evaluation).getD "")) ++
        [ChatMessage.mk "user" finalUserPrompt]) := by
  unfold buildPromptWithFeedback
  have hw : ∀ d ∈ ((nodesAlong t p).drop 1).reverse,
      (d.evaluation.map (fun e =>
        ChatMessage.mk "assistant" (summarizeEvaluation d.state ++ e))).isSome = true := by
    intro d hd
    obtain ⟨e, he⟩ := Option.isSome_iff_exists.mp (h d (List.mem_reverse.mp hd))
    simp [he]
  rw [optionList_map_getD _ _ (ChatMessage.mk "assistant" "") hw]
  rw [Option.map_some']
  rw [List.map_reverse, List.reverse_reverse]
  have hmap : List.map (fun a =>
        (Option.map (fun e => ChatMessage.mk "assistant" (summarizeEvaluation a.state ++ e))
          a.evaluation).getD (ChatMessage.mk "assistant" ""))
      ((nodesAlong t p).drop 1) =
      List.map (fun d =>
        ChatMessage.mk "assistant" (summarizeEvaluation d.state ++ (d.evaluation).getD ""))
      ((nodesAlong t p).drop 1) := by
    apply List.map_congr_left
    intro d hd
    obtain ⟨e, he⟩ := Option.isSome_iff_exists.mp (h d hd)
    simp [he]
  rw [hmap]

theorem expand_spec (O : Oracle) (dl : Nat) (pb : String) (t : MTree) (leaf : List Nat)
    (hleaf : t.validPath leaf) (hchildless : (t.subtreeAt leaf).children = [])
    (heval : ∀ d ∈ (nodesAlong t leaf).drop 1, (d.evaluation).isSome = true) :
    ∃ t1, expand O dl pb t leaf = some t1 ∧
      t1.validPath leaf ∧
      (∀ q, (t1.validPath q ↔
        t.validPath q ∨ ∃ j, j < (t1.subtreeAt leaf).children.length ∧ q = leaf ++ [j])) ∧
      (∀ q, t.validPath q → t1.dataAt q = t.dataAt q) ∧
      (∀ j, j < (t1.subtreeAt leaf).children.length →
        (t1.dataAt (leaf ++ [j])).evaluation = none ∧
        (t1.dataAt (leaf ++ [j])).rewardSamples = [] ∧
        (t1.dataAt (leaf ++ [j])).Q = 0 ∧
        (t1.dataAt (leaf ++ [j])).visits = 0) := by
  unfold expand
  by_cases hdl : dl ≤ (t.dataAt leaf).depth
  · rw [if_pos hdl]
    refine ⟨t, rfl, hleaf, ?_, fun q _ => rfl, ?_⟩
    · intro q
      rw [hchildless]
      simp
    · intro j hj
      rw [hchildless] at hj
      simp at hj
  · rw [if_neg hdl, buildPrompt_eq t leaf pb heval]
    set msgs := ChatMessage.mk "user" (problemPrompt pb) ::
      ((nodesAlong t leaf).drop 1).map (fun d =>
        ChatMessage.mk "assistant" (summarizeEvaluation d.state ++ (d.evaluation).getD "")) ++
      [ChatMessage.mk "user" finalUserPrompt] with hmsgs
    set s0 := stripString (O.choice msgs 2 0) with hs0
    set s1 := stripString (O.choice msgs 2 1) with hs1
    have hfold : (List.range 2).foldl
        (fun acc i => acc.addChild leaf (stripString (O.choice msgs 2 i))) t =
        (t.addChild leaf s0).addChild leaf s1 := rfl
    simp only [hfold]
    set t' := t.addChild leaf s0 with ht'
    set t1 := t'.addChild leaf s1 with ht1
    have hvleaf' : t'.validPath leaf :=
      (validPath_addChild_iff s0 leaf t hleaf leaf).mpr (Or.inl hleaf)
    have hvleaf1 : t1.validPath leaf :=
      (validPath_addChild_iff s1 leaf t' hvleaf' leaf).mpr (Or.inl hvleaf')
    have hch' : (t'.subtreeAt leaf).children =
        [newNode s0 ((t.dataAt leaf).depth + 1)] := by
      rw [ht', children_addChild_self s0 leaf t hleaf, hchildless]
      rfl
    have hdepth' : t'.dataAt leaf = t.dataAt leaf := dataAt_addChild s0 leaf leaf t hleaf
    have hch1 : (t1.subtreeAt leaf).children =
        [newNode s0 ((t.dataAt leaf).depth + 1), newNode s1 ((t.dataAt leaf).depth + 1)] := by
      rw [ht1, children_addChild_self s1 leaf t' hvleaf', hch', hdepth']
      rfl
    have hlen : (t1.subtreeAt leaf).children.length = 2 := by rw [hch1]; rfl
    have hnew0 : t'.dataAt (leaf ++ [0]) = ⟨s0, none, 0, 0, [], 0, (t.dataAt leaf).depth + 1⟩ := by
      have := dataAt_addChild_new s0 leaf t hleaf
      rw [hchildless] at this
      exact this
    have hv0' : t'.validPath (leaf ++ [0]) := by
      rw [ht', validPath_addChild_iff s0 leaf t hleaf]
      right
      rw [hchildless]
      rfl
    have hnew1 : t1.dataAt (leaf ++ [1]) = ⟨s1, none, 0, 0, [], 0, (t.dataAt leaf).depth + 1⟩ := by
      have := dataAt_addChild_new s1 leaf t' hvleaf'
      rw [hch', hdepth'] at this
      exact this
    have hnew0' : t1.dataAt (leaf ++ [0]) = ⟨s0, none, 0, 0, [], 0, (t.dataAt leaf).depth + 1⟩ := by
      rw [ht1, dataAt_addChild s1 (leaf ++ [0]) leaf t' hv0', hnew0]
    refine ⟨t1, rfl, hvleaf1, ?_, ?_, ?_⟩
    · intro q
      rw [hlen]
      rw [ht1, validPath_addChild_iff s1 leaf t' hvleaf' q, ht',
        validPath_addChild_iff s0 leaf t hleaf q, hchildless, hch']
      constructor
      · rintro ((hv | hv) | hv)
        · exact Or.inl hv
        · exact Or.inr ⟨0, by omega, by simpa using hv⟩
        · exact Or.inr ⟨1, by omega, by simpa using hv⟩
      · rintro (hv | ⟨j, hj, hv⟩)
        · exact Or.inl (Or.inl hv)
        · interval_cases j
          · exact Or.inl (Or.inr (by simpa using hv))
          · exact Or.inr (by simpa using hv)
    · intro q hq
      have hq' : t'.validPath q :=
        (validPath_addChild_iff s0 leaf t hleaf q).mpr (Or.inl hq)
      rw [ht1, dataAt_addChild s1 q leaf t' hq', ht', dataAt_addChild s0 q leaf t hq]
    · intro j hj
      rw [hlen] at hj
      interval_cases j
      · rw [hnew0']
        exact ⟨rfl, rfl, rfl, rfl⟩
      · rw [hnew1]
        exact ⟨rfl, rfl, rfl, rfl⟩

theorem mctsLoop_zero (O : Oracle) (dl : Nat) (pb : String) (t : MTree) (cur : List Nat) :
    mctsLoop O dl pb 0 t cur = some (TrialResult.noSolution t) := rfl

theorem mctsLoop_succ_eq (O : Oracle) (dl : Nat) (pb : String) (n : Nat) (t : MTree)
    (cur : List Nat) :
    mctsLoop O dl pb (n + 1) t cur =
      (match expand O dl pb t (cur ++ (t.subtreeAt cur).descend) with
        | none => none
        | some t1 =>
          match simulateChildren O t1 (cur ++ (t.subtreeAt cur).descend)
              (List.range ((t1.subtreeAt (cur ++ (t.subtreeAt cur).descend)).children.length)) with
          | BatchResult.found t2 q => some (TrialResult.found t2 q)
          | BatchResult.done t2 => mctsLoop O dl pb n t2 (cur ++ (t.subtreeAt cur).descend)) := rfl

theorem mctsLoop_succ_found (O : Oracle) (dl : Nat) (pb : String) (n : Nat) (t : MTree)
    (cur : List Nat) (t1 t2 : MTree) (q : List Nat)
    (h1 : expand O dl pb t (cur ++ (t.subtreeAt cur).descend) = some t1)
    (h2 : simulateChildren O t1 (cur ++ (t.subtreeAt cur).descend)
        (List.range ((t1.subtreeAt (cur ++ (t.subtreeAt cur).descend)).children.length)) =
      BatchResult.found t2 q) :
    mctsLoop O dl pb (n + 1) t cur = some (TrialResult.found t2 q) := by
  rw [mctsLoop_succ_eq, h1]
  show (match simulateChildren O t1 (cur ++ (t.subtreeAt cur).descend)
      (List.range ((t1.subtreeAt (cur ++ (t.subtreeAt cur).descend)).children.length)) with
    | BatchResult.found t2 q => some (TrialResult.found t2 q)
    | BatchResult.done t2 => mctsLoop O dl pb n t2 (cur ++ (t.subtreeAt cur).descend)) =
    some (TrialResult.found t2 q)
  rw [h2]

theorem mctsLoop_succ_done (O : Oracle) (dl : Nat) (pb : String) (n : Nat) (t : MTree)
    (cur : List Nat) (t1 t2 : MTree)
    (h1 : expand O dl pb t (cur ++ (t.subtreeAt cur).descend) = some t1)
    (h2 : simulateChildren O t1 (cur ++ (t.subtreeAt cur).descend)
        (List.range ((t1.subtreeAt (cur ++ (t.subtreeAt cur).descend)).children.length)) =
      BatchResult.done t2) :
    mctsLoop O dl pb (n + 1) t cur =
      mctsLoop O dl pb n t2 (cur ++ (t.subtreeAt cur).descend) := by
  rw [mctsLoop_succ_eq, h1]
  show (match simulateChildren O t1 (cur ++ (t.subtreeAt cur).descend)
      (List.range ((t1.subtreeAt (cur ++ (t.subtreeAt cur).descend)).children.length)) with
    | BatchResult.found t2 q => some (TrialResult.found t2 q)
    | BatchResult.done t2 => mctsLoop O dl pb n t2 (cur ++ (t.subtreeAt cur).descend)) =
    mctsLoop O dl pb n t2 (cur ++ (t.subtreeAt cur).descend)
  rw [h2]

theorem evalAll_nodesAlong (t : MTree) (p : List Nat) (hp : t.validPath p) (he : EvalAll t) :
    ∀ d ∈ (nodesAlong t p).drop 1, (d.evaluation).isSome = true := by
  intro d hd
  rw [nodesAlong_eq p t hp, ← List.map_drop] at hd
  obtain ⟨q, hq, hqeq⟩ := List.mem_map.mp hd
  obtain ⟨hqne, hqmem⟩ := mem_drop_one_ancestorPaths p q hq
  have hqv := validPath_onPath q p t hp (ancestorPaths_onPath p q hqmem)
  rw [← hqeq]
  exact he q hqv hqne

theorem not_validPath_child_of_childless (t : MTree) (leaf : List Nat) (k : Nat)
    (hleaf : t.validPath leaf) (hch : (t.subtreeAt leaf).children = []) :
    ¬ t.validPath (leaf ++ [k]) := by
  rw [validPath_append leaf t hleaf]
  intro hv
  cases hsub : t.subtreeAt leaf with
  | node d cs =>
    rw [hsub] at hch hv
    simp only [children_node] at hch
    subst hch
    simp [MTree.validPath, children_node] at hv

theorem mctsLoop_main (O : Oracle) (dl : Nat) (pb : String) :
    ∀ (n : Nat) (t : MTree) (cur : List Nat),
      t.validPath cur → EvalAll t →
      (∃ r, mctsLoop O dl pb n t cur = some r) ∧
      (∀ t' q', mctsLoop O dl pb n t cur = some (TrialResult.found t' q') →
        ∃ leaf j, q' = leaf ++ [j] ∧
          toSubmitSignal (O.evalState ((t'.dataAt q').state)) = true ∧
          (∀ k, j < k → t'.validPath (leaf ++ [k]) →
            (t'.dataAt (leaf ++ [k])).evaluation = none) ∧
          (∀ k, k < j →
            toSubmitSignal (O.evalState ((t'.dataAt (leaf ++ [k])).state)) = false)) ∧
      (QAll t → ∀ r, mctsLoop O dl pb n t cur = some r → QAll (outcomeTree r)) ∧
      ((∀ st, toSubmitSignal (O.evalState st) = false) →
        ∃ t', mctsLoop O dl pb n t cur = some (TrialResult.noSolution t')) := by
  intro n
  induction n with
  | zero =>
    intro t cur _ _
    refine ⟨⟨TrialResult.noSolution t, rfl⟩, ?_, ?_, fun _ => ⟨t, rfl⟩⟩
    · intro t' q' heq
      rw [mctsLoop_zero] at heq
      simp at heq
    · intro hq r heq
      rw [mctsLoop_zero] at heq
      simp only [Option.some.injEq] at heq
      subst heq
      exact hq
  | succ n ih =>
    intro t cur hcur he
    have hvleaf : t.validPath (cur ++ (t.subtreeAt cur).descend) := by
      rw [validPath_append cur t hcur]
      exact descend_validPath _
    have hchildless : (t.subtreeAt (cur ++ (t.subtreeAt cur).descend)).children = [] := by
      rw [subtreeAt_append cur t hcur]
      exact descend_leaf _
    set leaf := cur ++ (t.subtreeAt cur).descend with hleafdef
    have heval := evalAll_nodesAlong t leaf hvleaf he
    obtain ⟨t1, hexp, hvleaf1, hvaliff, hdata, hfresh⟩ :=
      expand_spec O dl pb t leaf hvleaf hchildless heval
    set count := (t1.subtreeAt leaf).children.length with hcount
    have hval' : ∀ j ∈ List.range count, t1.validPath (leaf ++ [j]) := by
      intro j hj
      exact (hvaliff (leaf ++ [j])).mpr (Or.inr ⟨j, List.mem_range.mp hj, rfl⟩)
    have hq1 : QAll t → QAll t1 := by
      intro hq q hvq
      rcases (hvaliff q).mp hvq with hv | ⟨j, hj, hqeq⟩
      · rw [hdata q hv]
        exact hq q hv
      · subst hqeq
        obtain ⟨-, hsmp, hQ0, -⟩ := hfresh j hj
        simp [qInvData, hsmp, hQ0]
    cases hbatch : simulateChildren O t1 leaf (List.range count) with
    | found t2 q =>
      have hloop := mctsLoop_succ_found O dl pb n t cur t1 t2 q hexp hbatch
      rw [range_eq_natRange] at hbatch
      obtain ⟨j, hj0, hjc, hqeq, hsigj, hearlier, hviff, hstate, hevalun, hqinv⟩ :=
        simulateChildren_found_props O count 0 t1 leaf t2 q
          (fun k h1 h2 => hval' k (List.mem_range.mpr (by omega))) hbatch
      have hvqj : t1.validPath (leaf ++ [j]) := hval' j (List.mem_range.mpr (by omega))
      refine ⟨⟨TrialResult.found t2 q, hloop⟩, ?_, ?_, ?_⟩
      · intro t' q'' heq
        rw [hloop] at heq
        simp only [Option.some.injEq, TrialResult.found.injEq] at heq
        obtain ⟨h1, h2⟩ := heq
        subst h1
        subst h2
        refine ⟨leaf, j, hqeq, ?_, ?_, ?_⟩
        · rw [hqeq, hstate (leaf ++ [j]) hvqj]
          exact hsigj
        · intro k hk hvk
          have hvk1 : t1.validPath (leaf ++ [k]) := (hviff (leaf ++ [k])).mp hvk
          have hkc : k < count := by
            rcases (hvaliff (leaf ++ [k])).mp hvk1 with hvt | ⟨j', hj', hkeq⟩
            · exact absurd hvt (not_validPath_child_of_childless t leaf k hvleaf hchildless)
            · have : k = j' := by simpa using hkeq
              omega
          rw [hevalun k hk (by omega)]
          exact (hfresh k hkc).1
        · intro k hk
          have hvk1 : t1.validPath (leaf ++ [k]) :=
            hval' k (List.mem_range.mpr (by omega))
          rw [hstate (leaf ++ [k]) hvk1]
          exact hearlier k (by omega) hk
      · intro hq r heq
        rw [hloop] at heq
        simp only [Option.some.injEq] at heq
        subst heq
        intro s hvs
        have hvs1 : t1.validPath s := (hviff s).mp hvs
        exact hqinv s hvs1 (hq1 hq s hvs1)
      · intro hsig
        exfalso
        have := hsigj
        rw [hsig ((t1.dataAt (leaf ++ [j])).state)] at this
        exact Bool.false_ne_true this
    | done t2 =>
      have hloop := mctsLoop_succ_done O dl pb n t cur t1 t2 hexp hbatch
      obtain ⟨hdviff, hdstate, hdeval, hdqinv⟩ :=
        simulateChildren_done_props O (List.range count) t1 leaf t2 hval' hbatch
      have hvleaf2 : t2.validPath leaf := (hdviff leaf).mpr hvleaf1
      have he2 : EvalAll t2 := by
        intro q hvq hqne
        have hvq1 : t1.validPath q := (hdviff q).mp hvq
        apply hdeval q hvq1
        rcases (hvaliff q).mp hvq1 with hvt | ⟨j, hj, hqeq⟩
        · left
          rw [hdata q hvt]
          exact he q hvt hqne
        · right
          exact ⟨j, List.mem_range.mpr hj, hqeq⟩
      obtain ⟨ih1, ih2, ih3, ih4⟩ := ih t2 leaf hvleaf2 he2
      have hq2 : QAll t → QAll t2 := by
        intro hq q hvq
        have hvq1 : t1.validPath q := (hdviff q).mp hvq
        exact hdqinv q hvq1 (hq1 hq q hvq1)
      refine ⟨?_, ?_, ?_, ?_⟩
      · obtain ⟨r, hr⟩ := ih1
        exact ⟨r, by rw [hloop]; exact hr⟩
      · intro t' q' heq
        rw [hloop] at heq
        exact ih2 t' q' heq
      · intro hq r heq
        rw [hloop] at heq
        exact ih3 (hq2 hq) r heq
      · intro hsig
        obtain ⟨t', ht'⟩ := ih4 hsig
        exact ⟨t', by rw [hloop]; exact ht'⟩

theorem mctsTrial_main (O : Oracle) (dl : Nat) (pb : String) (n : Nat) :
    (∃ r, mctsTrial O dl pb n = some r) ∧
    (∀ t' q', mctsTrial O dl pb n = some (TrialResult.found t' q') →
      ∃ leaf j, q' = leaf ++ [j] ∧
        toSubmitSignal (O.evalState ((t'.dataAt q').state)) = true ∧
        (∀ k, j < k → t'.validPath (leaf ++ [k]) →
          (t'.dataAt (leaf ++ [k])).evaluation = none) ∧
        (∀ k, k < j →
          toSubmitSignal (O.evalState ((t'.dataAt (leaf ++ [k])).state)) = false)) ∧
    (∀ r, mctsTrial O dl pb n = some r → QAll (outcomeTree r)) ∧
    ((∀ st, toSubmitSignal (O.evalState st) = false) →
      ∃ t', mctsTrial O dl pb n = some (TrialResult.noSolution t')) := by
  have hroot : EvalAll (MTree.node ⟨O.rootState, none, 0, 0, [], 0, 0⟩ []) := by
    intro q hvq hqne
    cases q with
    | nil => exact absurd rfl hqne
    | cons j q' => simp [MTree.validPath, children_node] at hvq
  have hq : QAll (MTree.node ⟨O.rootState, none, 0, 0, [], 0, 0⟩ []) := by
    intro q hvq
    cases q with
    | nil => simp [MTree.dataAt, MTree.data, qInvData]
    | cons j q' => simp [MTree.validPath, children_node] at hvq
  obtain ⟨h1, h2, h3, h4⟩ :=
    mctsLoop_main O dl pb n (MTree.node ⟨O.rootState, none, 0, 0, [], 0, 0⟩ []) [] trivial hroot
  exact ⟨h1, h2, fun r hr => h3 hq r hr, h4⟩

theorem ancestorPaths_length : ∀ (p : List Nat), (ancestorPaths p).length = p.length + 1 := by
  intro p
  induction p with
  | nil => rfl
  | cons i p' ih => simp [ancestorPaths, ih]

theorem onPath_mem_ancestorPaths : ∀ (p q : List Nat), onPath q p → q ∈ ancestorPaths p := by
  intro p
  induction p with
  | nil =>
    intro q hq
    cases q with
    | nil => simp [ancestorPaths]
    | cons i q' => exact absurd hq (by simp [onPath])
  | cons j p' ih =>
    intro q hq
    cases q with
    | nil => simp [ancestorPaths]
    | cons i q' =>
      obtain ⟨hij, hq'⟩ := hq
      subst hij
      simp only [ancestorPaths, List.mem_cons, List.mem_map]
      right
      exact ⟨q', ih q' hq', rfl⟩

/-- C2 (amended): one `backpropagate` pass for a reward observed at the node
addressed by a path `p` with `p.length` ancestors appends the reward to
`reward_samples` and recomputes `Q` on exactly the `p.length + 1` nodes of
the root path (the node itself and each of its ancestors up to the root),
leaves every node off that path fully unchanged, and leaves `visits` and
`score` unchanged on every node: the additive `update_score` walk is never
invoked by backpropagation. -/
theorem c2_backpropagate_frame (t : MTree) (p : List Nat) (r : ℚ) (hp : t.validPath p) :
    ((ancestorPaths p).length = p.length + 1) ∧
    (∀ q, onPath q p ↔ q ∈ ancestorPaths p) ∧
    (∀ q, t.validPath q → onPath q p →
      ((t.backpropagate p r).dataAt q).rewardSamples = (t.dataAt q).rewardSamples ++ [r] ∧
      ((t.backpropagate p r).dataAt q).visits = (t.dataAt q).visits ∧
      ((t.backpropagate p r).dataAt q).score = (t.dataAt q).score ∧
      qInvData ((t.backpropagate p r).dataAt q)) ∧
    (∀ q, t.validPath q → ¬ onPath q p → (t.backpropagate p r).dataAt q = t.dataAt q) := by
  refine ⟨ancestorPaths_length p,
    fun q => ⟨onPath_mem_ancestorPaths p q, ancestorPaths_onPath p q⟩, ?_, ?_⟩
  · intro q hq hop
    have hon := dataAt_mapPath_on (fun d => addReward d r) q p t hp hop
    unfold MTree.backpropagate
    rw [hon]
    exact ⟨addReward_rewardSamples _ _, addReward_visits _ _, addReward_score _ _,
      qInvData_addReward _ _⟩
  · intro q hq hop
    unfold MTree.backpropagate
    exact dataAt_mapPath_off _ q p t hp hq hop

/-- C2 counterexample: the claim says one backpropagation pass updates
`visits` by exactly +1 on the touched nodes; on a two-node tree a pass
through the child leaves its `visits` at 0, not 1, because `backpropagate`
never calls `update_score`. -/
theorem c2_counterexample :
    (((MTree.node ⟨"R", none, 0, 0, [], 0, 0⟩ [newNode "X" 1]).backpropagate [0] 1).dataAt
        [0]).visits ≠
      ((MTree.node ⟨"R", none, 0, 0, [], 0, 0⟩ [newNode "X" 1]).dataAt [0]).visits + 1 := by
  decide

/-- C2 witness: on a concrete two-node tree, backpropagating reward 1
through the child appends the sample and leaves `visits` at 0. -/
theorem c2_backpropagate_frame_witness :
    (((MTree.node ⟨"R", none, 0, 0, [], 0, 0⟩ [newNode "X" 1]).backpropagate [0] 1).dataAt
        [0]).rewardSamples = [1] ∧
    (((MTree.node ⟨"R", none, 0, 0, [], 0, 0⟩ [newNode "X" 1]).backpropagate [0] 1).dataAt
        [0]).visits = 0 := by
  obtain ⟨h1, h2, -, -⟩ :=
    (c2_backpropagate_frame (MTree.node ⟨"R", none, 0, 0, [], 0, 0⟩ [newNode "X" 1]) [0] 1
      trivial).2.2.1 [0] trivial (onPath_refl [0])
  constructor
  · rw [h1]
    rfl
  · rw [h2]
    rfl

/-- C3: the reward computed by `simulate` is a total deterministic function
of the two-tier evaluator result: sample rate 1.0 with full-status timeout
gives -0.2; sample rate 1.0 without timeout gives 1.0; sample rate below
1.0 with timeout gives -0.2; sample rate below 1.0 without timeout gives
the sample rate itself. -/
theorem c3_reward_shaping (rate : ℚ) (status : String) :
    (rate = 1 → status = "timeout" → simulateScore rate status = -0.2) ∧
    (rate = 1 → status ≠ "timeout" → simulateScore rate status = 1) ∧
    (rate < 1 → status = "timeout" → simulateScore rate status = -0.2) ∧
    (rate < 1 → status ≠ "timeout" → simulateScore rate status = rate) := by
  unfold simulateScore
  refine ⟨?_, ?_, ?_, ?_⟩ <;> intro h1 h2
  · rw [if_pos h1, if_pos h2]
  · rw [if_pos h1, if_neg h2]
  · rw [if_neg (ne_of_lt h1), if_pos h2]
  · rw [if_neg (ne_of_lt h1), if_neg h2]

/-- C3 witness: the four rows of the reward table at rate 1 and 3/5. -/
theorem c3_reward_shaping_witness :
    simulateScore 1 "timeout" = -0.2 ∧ simulateScore 1 "ok" = 1 ∧
    simulateScore (3/5 : ℚ) "timeout" = -0.2 ∧ simulateScore (3/5 : ℚ) "ok" = 3/5 :=
  ⟨(c3_reward_shaping 1 "timeout").1 rfl rfl,
   (c3_reward_shaping 1 "ok").2.1 rfl (by decide),
   (c3_reward_shaping (3/5) "timeout").2.2.1 (by norm_num) rfl,
   (c3_reward_shaping (3/5) "ok").2.2.2 (by norm_num) (by decide)⟩

/-- C4: `ucb1` returns plus infinity exactly on unvisited nodes and the
quoted formula otherwise; `select` over a non-empty children list returns
the child of maximal priority, its index addressing that child, with every
earlier sibling strictly smaller in priority (ties break toward the first
child in insertion order); consequently an unvisited child is always
selected over any visited sibling. -/
theorem c4_ucb1_selection (pv : Nat) (c0 : MTree) (cs : List MTree) :
    (∀ d : NodeData, d.visits = 0 → ucb1 pv d = Priority.posInf) ∧
    (∀ d : NodeData, d.visits ≠ 0 →
      ucb1 pv d = Priority.val ((d.Q : ℝ) / (d.visits : ℝ) +
        1.4 * Real.sqrt (Real.log (pv : ℝ) / ((d.visits : ℝ) + 0.01)))) ∧
    (c0 :: cs).get? (selectIdx pv c0 cs).1 = some (selectIdx pv c0 cs).2 ∧
    (∀ c ∈ c0 :: cs,
      ¬ Priority.lt (ucb1 pv (selectIdx pv c0 cs).2.data) (ucb1 pv c.data)) ∧
    (∀ k ck, (c0 :: cs).get? k = some ck → k < (selectIdx pv c0 cs).1 →
      Priority.lt (ucb1 pv ck.data) (ucb1 pv (selectIdx pv c0 cs).2.data)) ∧
    ((∃ c ∈ c0 :: cs, c.data.visits = 0) → (selectIdx pv c0 cs).2.data.visits = 0) :=
  ⟨ucb1_of_visits_zero pv, ucb1_of_visits_ne pv, selectIdx_get? pv c0 cs,
    selectIdx_max pv c0 cs, selectIdx_earlier pv c0 cs, selectIdx_unvisited pv c0 cs⟩

/-- C4 witness: with a visited first child and an unvisited second child,
the selected child is unvisited. -/
theorem c4_ucb1_selection_witness :
    (selectIdx 7 (MTree.node ⟨"a", none, 3, 0, [1], 1, 1⟩ [])
      [MTree.node ⟨"b", none, 0, 0, [], 0, 1⟩ []]).2.data.visits = 0 :=
  (c4_ucb1_selection 7 (MTree.node ⟨"a", none, 3, 0, [1], 1, 1⟩ [])
    [MTree.node ⟨"b", none, 0, 0, [], 0, 1⟩ []]).2.2.2.2.2
    ⟨MTree.node ⟨"b", none, 0, 0, [], 0, 1⟩ [], by simp, rfl⟩

/-- C6: expansion of a node at or beyond the depth limit is a no-op that
returns the tree unchanged; expansion below the limit appends exactly two
children (one per completion, in completion order, whitespace-stripped)
to the leaf's children via `add_child`, each with the leaf's depth plus
one, and changes no other node. -/
theorem c6_expansion (O : Oracle) (dl : Nat) (pb : String) (t : MTree) (p : List Nat)
    (hp : t.validPath p) :
    (dl ≤ (t.dataAt p).depth → expand O dl pb t p = some t) ∧
    ((t.dataAt p).depth < dl → ∀ msgs, buildPromptWithFeedback t p pb = some msgs →
      ∃ t', expand O dl pb t p = some t' ∧
        (t'.subtreeAt p).children = (t.subtreeAt p).children ++
          [newNode (stripString (O.choice msgs 2 0)) ((t.dataAt p).depth + 1),
           newNode (stripString (O.choice msgs 2 1)) ((t.dataAt p).depth + 1)] ∧
        (∀ q, t.validPath q → t'.dataAt q = t.dataAt q)) := by
  constructor
  · intro hdl
    unfold expand
    rw [if_pos hdl]
  · intro hdl msgs hmsgs
    unfold expand
    rw [if_neg (not_le.mpr hdl), hmsgs]
    refine ⟨(t.addChild p (stripString (O.choice msgs 2 0))).addChild p
      (stripString (O.choice msgs 2 1)), rfl, ?_, ?_⟩
    · have hv' : (t.addChild p (stripString (O.choice msgs 2 0))).validPath p :=
        (validPath_addChild_iff (stripString (O.choice msgs 2 0)) p t hp p).mpr (Or.inl hp)
      rw [children_addChild_self (stripString (O.choice msgs 2 1)) p _ hv',
        children_addChild_self (stripString (O.choice msgs 2 0)) p t hp,
        dataAt_addChild (stripString (O.choice msgs 2 0)) p p t hp]
      simp [List.append_assoc]
    · intro q hq
      have hq' : (t.addChild p (stripString (O.choice msgs 2 0))).validPath q :=
        (validPath_addChild_iff (stripString (O.choice msgs 2 0)) p t hp q).mpr (Or.inl hq)
      rw [dataAt_addChild (stripString (O.choice msgs 2 1)) q p _ hq',
        dataAt_addChild (stripString (O.choice msgs 2 0)) q p t hq]

/-- C6 witness: at depth limit 0 expansion of the root is a no-op; at the
default depth limit 5 it appends two children built from the oracle's two
completions. -/
theorem c6_expansion_witness :
    expand constOracle 0 "P" (MTree.node ⟨"R", none, 0, 0, [], 0, 0⟩ []) [] =
      some (MTree.node ⟨"R", none, 0, 0, [], 0, 0⟩ []) ∧
    expand constOracle 5 "P" (MTree.node ⟨"R", none, 0, 0, [], 0, 0⟩ []) [] =
      some (MTree.node ⟨"R", none, 0, 0, [], 0, 0⟩ [newNode "X" 1, newNode "X" 1]) := by
  refine ⟨(c6_expansion constOracle 0 "P" (MTree.node ⟨"R", none, 0, 0, [], 0, 0⟩ []) []
    trivial).1 (by decide), ?_⟩
  rfl

/-- C7: a fresh node starts with `Q = 0` and empty `reward_samples`; every
`add_reward` call appends the sample and recomputes `Q` as
`(mean + min) / 2` of the samples, where `min` is a true minimum of the
sample list; and every tree an engine run can return satisfies the `Q`
invariant at every node. -/
theorem c7_quality_score :
    (∀ (st : String) (dep : Nat),
      (newNode st dep).data.Q = 0 ∧ (newNode st dep).data.rewardSamples = []) ∧
    (∀ (d : NodeData) (r : ℚ), (addReward d r).rewardSamples = d.rewardSamples ++ [r] ∧
      ∃ m, m ∈ d.rewardSamples ++ [r] ∧ (∀ x ∈ d.rewardSamples ++ [r], m ≤ x) ∧
        (addReward d r).Q =
          ((d.rewardSamples ++ [r]).sum / ((d.rewardSamples ++ [r]).length : ℚ) + m) / 2) ∧
    (∀ (O : Oracle) (dl : Nat) (pb : String) (n : Nat) (r : TrialResult),
      mctsTrial O dl pb n = some r → QAll (outcomeTree r)) := by
  refine ⟨fun st dep => ⟨rfl, rfl⟩, ?_, ?_⟩
  · intro d r
    refine ⟨addReward_rewardSamples d r, listMin (d.rewardSamples ++ [r]), ?_, ?_, addReward_Q d r⟩
    · cases hl : d.rewardSamples ++ [r] with
      | nil => simp at hl
      | cons x xs => exact listMin_mem x xs
    · cases hl : d.rewardSamples ++ [r] with
      | nil => simp at hl
      | cons x xs =>
        intro y hy
        exact listMin_le x xs y hy
  · intro O dl pb n r hr
    exact (mctsTrial_main O dl pb n).2.2.1 r hr

/-- C7 witness: the invariant clauses at concrete inputs, the engine clause
at a zero-step run. -/
theorem c7_quality_score_witness :
    (newNode "X" 1).data.Q = 0 ∧
    (addReward ⟨"s", none, 0, 0, [], 0, 0⟩ 1).rewardSamples = [1] ∧
    QAll (outcomeTree (TrialResult.noSolution
      (MTree.node ⟨"R", none, 0, 0, [], 0, 0⟩ []))) := by
  refine ⟨(c7_quality_score.1 "X" 1).1, ?_, ?_⟩
  · have h := (c7_quality_score.2.1 ⟨"s", none, 0, 0, [], 0, 0⟩ 1).1
    rw [h]
    rfl
  · exact c7_quality_score.2.2 constOracle 5 "P" 0
      (TrialResult.noSolution (MTree.node ⟨"R", none, 0, 0, [], 0, 0⟩ [])) rfl

/-- C8: the Generator context for a node is built by walking from the node
up to the root (root excluded) collecting a bounded summary of each
visited node's state concatenated with its evaluation text, reversing the
collection to root-to-child order, and wrapping it between the problem
prompt and the closing user message; the summarizer truncates any text
longer than 100 characters to its first 100 plus an ellipsis plus its last
100 characters and passes shorter text through unchanged. -/
theorem c8_context_building (t : MTree) (p : List Nat) (pb : String)
    (hp : t.validPath p)
    (h : ∀ d ∈ (nodesAlong t p).drop 1, (d.evaluation).isSome = true) :
    buildPromptWithFeedback t p pb =
      some (ChatMessage.mk "user" (problemPrompt pb) ::
        ((ancestorPaths p).drop 1).map (fun q =>
          ChatMessage.mk "assistant"
            (summarizeEvaluation ((t.dataAt q).state) ++ ((t.dataAt q).evaluation).getD "")) ++
        [ChatMessage.mk "user" finalUserPrompt]) ∧
    (∀ s : String, 100 < s.length →
      summarizeEvaluation s = s.take 100 ++ "..." ++ s.drop (s.length - 100)) ∧
    (∀ s : String, s.length ≤ 100 → summarizeEvaluation s = s) := by
  refine ⟨?_, ?_, ?_⟩
  · rw [buildPrompt_eq t p pb h]
    rw [nodesAlong_eq p t hp, ← List.map_drop, List.map_map]
    rfl
  · intro s hs
    unfold summarizeEvaluation
    rw [if_pos hs]
  · intro s hs
    unfold summarizeEvaluation
    rw [if_neg (not_lt.mpr hs)]

/-- C8 witness: the context for a depth-1 node with a short state and a
recorded evaluation. -/
theorem c8_context_building_witness :
    buildPromptWithFeedback (MTree.node ⟨"root", none, 0, 0, [], 0, 0⟩
        [MTree.node ⟨"cand", some "ev", 0, 0, [0], 0, 1⟩ []]) [0] "P" =
      some [ChatMessage.mk "user" (problemPrompt "P"),
        ChatMessage.mk "assistant" "candev",
        ChatMessage.mk "user" finalUserPrompt] := by
  have h := (c8_context_building (MTree.node ⟨"root", none, 0, 0, [], 0, 0⟩
      [MTree.node ⟨"cand", some "ev", 0, 0, [0], 0, 1⟩ []]) [0] "P" trivial (by decide)).1
  rw [h]
  rfl

/-- C10: no run of the engine ever reads the evaluation of a node whose
evaluation is still null inside the context-building walk: every node the
walk visits has been simulated in an earlier batch, so `mcts_trial` always
produces a result instead of raising. -/
theorem c10_walk_safety (O : Oracle) (dl : Nat) (pb : String) (n : Nat) :
    (mctsTrial O dl pb n).isSome = true := by
  obtain ⟨r, hr⟩ := (mctsTrial_main O dl pb n).1
  rw [hr]
  rfl

/-- C5: the search loop performs no iteration once the step budget is
exhausted and returns the null result; if no simulation ever raises the
success signal a run returns the null result rather than throwing; and
when a run returns a node, that node is a freshly created child whose
simulation signalled success (reward exactly 1.0, the spec-modelled
`to_submit_signal`), every sibling simulated before it in creation order
did not signal, and every not-yet-simulated later sibling of the same
batch is abandoned with its evaluation still unset. -/
theorem c5_search_loop (O : Oracle) (dl : Nat) (pb : String) (n : Nat) :
    (∀ t cur, mctsLoop O dl pb 0 t cur = some (TrialResult.noSolution t)) ∧
    ((∀ st, toSubmitSignal (O.evalState st) = false) →
      ∃ t', mctsTrial O dl pb n = some (TrialResult.noSolution t')) ∧
    (∀ t' q', mctsTrial O dl pb n = some (TrialResult.found t' q') →
      ∃ leaf j, q' = leaf ++ [j] ∧
        toSubmitSignal (O.evalState ((t'.dataAt q').state)) = true ∧
        (∀ k, j < k → t'.validPath (leaf ++ [k]) →
          (t'.dataAt (leaf ++ [k])).evaluation = none) ∧
        (∀ k, k < j →
          toSubmitSignal (O.evalState ((t'.dataAt (leaf ++ [k])).state)) = false)) :=
  ⟨fun t cur => rfl, (mctsTrial_main O dl pb n).2.2.2, (mctsTrial_main O dl pb n).2.1⟩

/-- C5 witness: under the always-failing stub oracle the three-step run
returns a result (the null outcome) rather than raising. -/
theorem c5_search_loop_witness :
    (mctsTrial constOracle 5 "P" 3).isSome = true := by
  obtain ⟨t', ht'⟩ := (c5_search_loop constOracle 5 "P" 3).2.1 (fun st => rfl)
  rw [ht']
  rfl

theorem descend_first_unvisited (d : NodeData) (c0 : MTree) (cs : List MTree)
    (h0 : c0.data.visits = 0) (h : ∀ c ∈ cs, c.data.visits = 0) :
    (MTree.node d (c0 :: cs)).descend = 0 :: c0.descend := by
  rw [descend_cons, selectIdx_all_unvisited d.visits c0 cs h0 h]

theorem descend_no_children (t : MTree) (h : t.children = []) : t.descend = [] := by
  cases t with
  | node d cs =>
    rw [children_node] at h
    subst h
    exact descend_nil d

theorem descend_unvisited_pair (t c0 c1 : MTree)
    (hc : t.children = [c0, c1])
    (h0 : c0.data.visits = 0) (h1 : c1.data.visits = 0) :
    t.descend = 0 :: c0.descend := by
  cases t with
  | node d cs =>
    rw [children_node] at hc
    subst hc
    exact descend_first_unvisited d c0 [c1] h0
      (by intro c hcm; simp only [List.mem_singleton] at hcm; subst hcm; exact h1)

theorem c9_descend_T1 : c9T1.descend = [0] := by
  have hc : c9T1.children = [c9T1.subtreeAt [0], c9T1.subtreeAt [1]] := rfl
  rw [descend_unvisited_pair c9T1 _ _ hc rfl rfl,
    descend_no_children (c9T1.subtreeAt [0]) rfl]

theorem c9_descend_T2sub : (c9T2.subtreeAt [0]).descend = [0] := by
  have hc : (c9T2.subtreeAt [0]).children = [c9T2.subtreeAt [0, 0], c9T2.subtreeAt [0, 1]] := rfl
  rw [descend_unvisited_pair (c9T2.subtreeAt [0]) _ _ hc rfl rfl,
    descend_no_children (c9T2.subtreeAt [0, 0]) rfl]

theorem c9_step1 (n : Nat) :
    mctsLoop constOracle 5 "P" (n + 1) c9T0 [] = mctsLoop constOracle 5 "P" n c9T1 [] := by
  rw [mctsLoop_succ_eq]
  have hleaf : ([] : List Nat) ++ (c9T0.subtreeAt []).descend = [] := by
    rw [subtreeAt_nil]
    rw [show c9T0.descend = [] from descend_nil _]
    rfl
  rw [hleaf]
  rfl

theorem c9_step2 (n : Nat) :
    mctsLoop constOracle 5 "P" (n + 1) c9T1 [] = mctsLoop constOracle 5 "P" n c9T2 [0] := by
  rw [mctsLoop_succ_eq]
  have hleaf : ([] : List Nat) ++ (c9T1.subtreeAt []).descend = [0] := by
    rw [subtreeAt_nil, c9_descend_T1]
    rfl
  rw [hleaf]
  rfl

theorem c9_step3 (n : Nat) :
    mctsLoop constOracle 5 "P" (n + 1) c9T2 [0] = mctsLoop constOracle 5 "P" n c9TreeC [0, 0] := by
  rw [mctsLoop_succ_eq]
  have hleaf : [0] ++ (c9T2.subtreeAt [0]).descend = [0, 0] := by
    rw [c9_descend_T2sub]
    rfl
  rw [hleaf]
  rfl

theorem c9_run : mctsTrial constOracle 5 "P" 3 = some (TrialResult.noSolution c9TreeC) := by
  show mctsLoop constOracle 5 "P" (2 + 1) c9T0 [] = some (TrialResult.noSolution c9TreeC)
  rw [c9_step1 2]
  rw [show (2 : Nat) = 1 + 1 from rfl, c9_step2 1]
  rw [show (1 : Nat) = 0 + 1 from rfl, c9_step3 0]
  rw [mctsLoop_zero]

theorem c9_run_two_steps : mctsTrial constOracle 5 "P" 2 = some (TrialResult.noSolution c9T2) := by
  show mctsLoop constOracle 5 "P" (1 + 1) c9T0 [] = some (TrialResult.noSolution c9T2)
  rw [c9_step1 1]
  rw [show (1 : Nat) = 0 + 1 from rfl, c9_step2 0]
  rw [mctsLoop_zero]

theorem c9T2_shape : c9T2.withQZero = c9T2Lit := rfl

theorem c9TreeC_shape : c9TreeC.withQZero = c9TreeLit := rfl

/-- C9 counterexample: with the evaluator always reporting sample success
rate 0.0 and full status `other-failure`, `max_steps = 3` and depth limit
5, the engine does return no solution, but the final tree — here exhibited
up to its `Q` fields — is a chain with 4 leaves at depths 3, 3, 2 and 1,
not `3 * branching_factor = 6` leaves all at depth 1: `current_node`
persists across loop iterations, so each iteration expands a node one
level deeper instead of restarting the descent at the root. -/
theorem c9_counterexample :
    mctsTrial constOracle 5 "P" 3 = some (TrialResult.noSolution c9TreeC) ∧
    c9TreeC.withQZero = c9TreeLit ∧
    c9TreeLit.leafCount = 4 ∧
    c9TreeLit.leafDepths = [3, 3, 2, 1] ∧
    ¬(c9TreeLit.leafCount = 6 ∧ ∀ d ∈ c9TreeLit.leafDepths, d = 1) := by
  have hl : c9TreeLit.leafCount = 4 := by
    simp [c9TreeLit, MTree.leafCount, leafCountList]
  have hd : c9TreeLit.leafDepths = [3, 3, 2, 1] := by
    simp [c9TreeLit, MTree.leafDepths, leafDepthsList]
  refine ⟨c9_run, c9TreeC_shape, hl, hd, ?_⟩
  rw [hl]
  simp

/-- C9 (amended): under the always-failing evaluator with `max_steps = 3`
and depth limit 5, the engine returns no solution after its three loop
iterations and the final tree is the chain `c9TreeLit` (up to the `Q`
fields): 1 + 3·2 = 7 nodes as expected, but only 4 leaves, at depths 3, 3,
2 and 1, because the descent resumes from the previously expanded node and
every visit counter stays 0, so selection always enters the first child of
the newest batch. -/
theorem c9_chain_run :
    mctsTrial constOracle 5 "P" 3 = some (TrialResult.noSolution c9TreeC) ∧
    mctsTrial constOracle 5 "P" 2 = some (TrialResult.noSolution c9T2) ∧
    c9TreeC.withQZero = c9TreeLit ∧
    c9TreeLit.nodeCount = 7 ∧
    c9TreeLit.leafCount = 4 ∧
    c9TreeLit.leafDepths = [3, 3, 2, 1] := by
  have hn : c9TreeLit.nodeCount = 7 := by
    simp [c9TreeLit, MTree.nodeCount, nodeCountList]
  have hl : c9TreeLit.leafCount = 4 := by
    simp [c9TreeLit, MTree.leafCount, leafCountList]
  have hd : c9TreeLit.leafDepths = [3, 3, 2, 1] := by
    simp [c9TreeLit, MTree.leafDepths, leafDepthsList]
  exact ⟨c9_run, c9_run_two_steps, c9TreeC_shape, hn, hl, hd⟩

/-- C1: refuted.  After the three completed simulate-plus-backpropagate
cycles of the `constOracle` run the root node holds 6 reward samples while
its `visits` counter is still 0: the engine's `backpropagate` walk only
calls `add_reward`, and `update_score` — the sole writer of `visits` and
`score` — is never invoked anywhere in the engine, so the two aggregation
paths do not stay in lockstep. -/
theorem c1_lockstep_failure :
    mctsTrial constOracle 5 "P" 3 = some (TrialResult.noSolution c9TreeC) ∧
    (c9TreeC.dataAt []).rewardSamples.length = 6 ∧
    (c9TreeC.dataAt []).visits = 0 ∧
    (c9TreeC.dataAt []).rewardSamples.length ≠ (c9TreeC.dataAt []).visits := by
  have h1 : (c9TreeC.dataAt []).rewardSamples.length = 6 := rfl
  have h2 : (c9TreeC.dataAt []).visits = 0 := rfl
  refine ⟨c9_run, h1, h2, ?_⟩
  rw [h1, h2]
  decide
